import Mathlib

namespace CognitiveGrammar

/-!
Verification of the `plugin-cognitive-grammar` subsystem
(attention allocator, hypergraph store, pattern matcher, PLN inference
engine, kernel registry).

The TypeScript sources are shallowly embedded here:
* JavaScript numbers are modelled as rationals (`ℚ`);
* JavaScript `Map`s (which preserve insertion order and have unique keys)
  are modelled as association lists `List (String × α)` with first-match
  lookup, in-place update of the first matching key, and append on fresh
  keys;
* stateful classes become explicit state passing;
* `throw` becomes `Except`.
-/

/-- `TruthValue` from `types.ts`: a (strength, uncertainty) pair. -/
structure TruthValue where
  strength : ℚ
  uncertainty : ℚ
deriving Repr, DecidableEq

/-- `AttentionValue` from `types.ts`. -/
structure AttentionValue where
  shortTermImportance : ℚ
  longTermImportance : ℚ
  vlti : Bool
deriving Repr, DecidableEq

/-! ### Association lists modelling JavaScript `Map` / plain objects -/

/-- `Map.get` / first-match association list lookup. -/
def alLookup (k : String) : List (String × α) → Option α
  | [] => none
  | (k', v) :: rest => if k' = k then some v else alLookup k rest

/-- `Map.has`. -/
def alContains (k : String) (l : List (String × α)) : Bool :=
  (alLookup k l).isSome

/-- Update the first entry with key `k` (no-op when absent). -/
def alUpdate (k : String) (f : α → α) : List (String × α) → List (String × α)
  | [] => []
  | (k', v) :: rest =>
    if k' = k then (k', f v) :: rest else (k', v) :: alUpdate k f rest

/-- `Map.set`: replace in place when the key is present, append otherwise. -/
def alSet (k : String) (v : α) (l : List (String × α)) : List (String × α) :=
  if alContains k l then alUpdate k (fun _ => v) l else l ++ [(k, v)]

/-- `Map.delete`. -/
def alErase (k : String) (l : List (String × α)) : List (String × α) :=
  l.filter (fun p => p.1 ≠ k)

/-! ### Truth-value helpers (`exports/utilities.ts`) -/

/-- `combineTruthValues` from `exports/utilities.ts`:
conjunctive strength, probabilistic-or uncertainty capped at 1. -/
def combineTruthValues (tv1 tv2 : TruthValue) : TruthValue :=
  { strength := tv1.strength * tv2.strength
    uncertainty :=
      min (tv1.uncertainty + tv2.uncertainty - tv1.uncertainty * tv2.uncertainty) 1 }

/-- `calculateConfidence` from `exports/utilities.ts`. -/
def calculateConfidence (truthValue : TruthValue) : ℚ :=
  truthValue.strength * (1 - truthValue.uncertainty)

/-! ### Attention allocator (`attention-allocator.ts`) -/

/-- `AttentionAllocationConfig` from `types.ts`; `modules` is the object's
entry list in key order. -/
structure AttentionAllocationConfig where
  totalBudget : ℚ
  modules : List (String × ℚ)
  decayRate : ℚ
  focusThreshold : ℚ
  emergencyAllocation : ℚ
deriving Repr, DecidableEq

/-- Mutable state of `CognitiveAttentionAllocator` (the `lastUpdate` date is
only read by the time-based decay path, which no claim touches). -/
structure AllocatorState where
  budget : ℚ
  allocations : List (String × ℚ)
  config : AttentionAllocationConfig
deriving Repr, DecidableEq

/-- The `CognitiveAttentionAllocator` constructor. -/
def mkAllocator (config : AttentionAllocationConfig) : AllocatorState :=
  { budget := config.totalBudget
    allocations := config.modules.foldl (fun m p => alSet p.1 p.2 m) []
    config := config }

/-- `getTotalAllocated`. -/
def getTotalAllocated (s : AllocatorState) : ℚ :=
  s.allocations.foldl (fun sum p => sum + p.2) 0

/-- `getAvailable`. -/
def getAvailable (s : AllocatorState) : ℚ :=
  s.budget - getTotalAllocated s

/-- `getAllocation` (missing module reads as 0, like `get(...) || 0`). -/
def getAllocation (s : AllocatorState) (moduleId : String) : ℚ :=
  (alLookup moduleId s.allocations).getD 0

/-- `canRedistribute`. -/
def canRedistribute (s : AllocatorState) (requiredAmount : ℚ) : Bool :=
  decide (getAvailable s + s.config.emergencyAllocation ≥ requiredAmount)

/-- The reduction loop of `redistributeWithAmount`: walk the sorted entry
snapshot, shaving up to 10% off each allocation until the deficit is
covered. -/
def redisLoop (entries : List (String × ℚ)) (deficit redistributed : ℚ)
    (allocs : List (String × ℚ)) : List (String × ℚ) :=
  match entries with
  | [] => allocs
  | (moduleId, allocation) :: rest =>
    if redistributed ≥ deficit then allocs
    else
      let reduction := min (allocation * (1 / 10)) (deficit - redistributed)
      redisLoop rest deficit (redistributed + reduction)
        (alSet moduleId (allocation - reduction) allocs)

/-- `redistributeWithAmount`; `Array.prototype.sort` is stable, modelled by
the stable `List.insertionSort` on the ascending-allocation order. -/
def redistributeWithAmount (s : AllocatorState) (requiredAmount : ℚ) :
    AllocatorState :=
  let available := getAvailable s
  if available ≥ requiredAmount then s
  else
    let deficit := requiredAmount - available
    let moduleEntries :=
      List.insertionSort (fun a b : String × ℚ => a.2 ≤ b.2) s.allocations
    { s with allocations := redisLoop moduleEntries deficit 0 s.allocations }

/-- `allocate`: returns the boolean result together with the new state. -/
def allocate (s : AllocatorState) (moduleId : String) (amount : ℚ) :
    Bool × AllocatorState :=
  let currentAllocation := getAllocation s moduleId
  let totalAllocated := getTotalAllocated s
  if totalAllocated + amount > s.budget then
    if canRedistribute s amount then
      let s' := redistributeWithAmount s amount
      (true,
        { s' with
          allocations := alSet moduleId (currentAllocation + amount) s'.allocations })
    else
      (false, s)
  else
    (true,
      { s with
        allocations := alSet moduleId (currentAllocation + amount) s.allocations })

/-- `deallocate`. -/
def deallocate (s : AllocatorState) (moduleId : String) (amount : ℚ) :
    Bool × AllocatorState :=
  let currentAllocation := getAllocation s moduleId
  if currentAllocation < amount then
    (false, s)
  else
    (true,
      { s with
        allocations := alSet moduleId (currentAllocation - amount) s.allocations })

/-- `simulateCompetition`: the returned map in demand-iteration order. -/
def simulateCompetition (s : AllocatorState) (demands : List (String × ℚ)) :
    List (String × ℚ) :=
  let totalDemand := demands.foldl (fun sum p => sum + p.2) 0
  if totalDemand > s.budget then
    demands.map (fun p =>
      let currentAllocation := (alLookup p.1 s.allocations).getD 0
      let competitiveWeight := currentAllocation / getTotalAllocated s
      let allocation := s.budget * competitiveWeight
      (p.1, min p.2 allocation))
  else
    demands

/-- A call in an `allocate`/`deallocate` sequence. -/
inductive AllocOp where
  | alloc (moduleId : String) (amount : ℚ)
  | dealloc (moduleId : String) (amount : ℚ)
deriving Repr, DecidableEq

/-- The amount carried by a call. -/
def AllocOp.amount : AllocOp → ℚ
  | .alloc _ a => a
  | .dealloc _ a => a

/-- Dispatch one call on the allocator. -/
def applyOp (s : AllocatorState) : AllocOp → Bool × AllocatorState
  | .alloc m a => allocate s m a
  | .dealloc m a => deallocate s m a

/-- Run a sequence of calls, keeping each call's state change (successful or
not — a failed call leaves the state unchanged). -/
def runOps (s : AllocatorState) : List AllocOp → AllocatorState
  | [] => s
  | op :: rest => runOps (applyOp s op).2 rest

/-- Every call in the sequence returns `true`. -/
def allSucceed (s : AllocatorState) : List AllocOp → Bool
  | [] => true
  | op :: rest => (applyOp s op).1 && allSucceed (applyOp s op).2 rest

/-- Pointwise domination of allocation maps: same keys in the same order,
values bounded. -/
def PW (l l' : List (String × ℚ)) : Prop :=
  List.Forall₂ (fun p q => p.1 = q.1 ∧ p.2 ≤ q.2) l l'

/-- Representation invariant of a well-formed allocator state together with
the budget bound of claim C4. -/
def AllocInv (s : AllocatorState) : Prop :=
  (∀ p ∈ s.allocations, 0 ≤ p.2) ∧
  (s.allocations.map Prod.fst).Nodup ∧
  getTotalAllocated s ≤ s.budget + s.config.emergencyAllocation

/-! ### JSON-like values -/

/-- JSON-like runtime values (the contents of `Record<string, unknown>`
metadata, pattern-matcher patterns/inputs, kernel outputs). Objects are
modelled as key-value lists in insertion order. -/
inductive PValue where
  | null
  | bool (b : Bool)
  | num (q : ℚ)
  | str (s : String)
  | arr (items : List PValue)
  | obj (fields : List (String × PValue))
deriving Repr

/-- JavaScript `===` restricted to the cases the matcher can reach it with:
at least one side a primitive (two structurally equal but distinct arrays or
objects compare unequal under `===` as well). -/
def scalarEq : PValue → PValue → Bool
  | .null, .null => true
  | .bool a, .bool b => a == b
  | .num a, .num b => a == b
  | .str a, .str b => a == b
  | _, _ => false

/-! ### Hypergraph store (`CognitiveHypergraph`) -/

/-- `HypergraphNode` from `types.ts`. -/
structure HypergraphNode where
  id : String
  type : String
  truthValue : TruthValue
  attentionValue : AttentionValue
  outgoing : List String
  incoming : List String
  metadata : List (String × PValue)
deriving Repr

/-- The node map of `CognitiveHypergraph`. -/
structure Hypergraph where
  nodes : List (String × HypergraphNode)
deriving Repr

/-- `addNode` (stores a shallow copy keyed by `node.id`). -/
def addNode (g : Hypergraph) (node : HypergraphNode) : Hypergraph :=
  ⟨alSet node.id node g.nodes⟩

/-- The `fromNode.outgoing.push(to)` step of `addLink` (idempotent). -/
def linkAddOut (dst : String) (n : HypergraphNode) : HypergraphNode :=
  if dst ∈ n.outgoing then n else { n with outgoing := n.outgoing ++ [dst] }

/-- The `toNode.incoming.push(from)` step of `addLink` (idempotent). -/
def linkAddInc (src : String) (n : HypergraphNode) : HypergraphNode :=
  if src ∈ n.incoming then n else { n with incoming := n.incoming ++ [src] }

/-- `addLink`: throws when either endpoint is missing; otherwise appends the
link idempotently to `from.outgoing` and `to.incoming`. -/
def addLink (g : Hypergraph) (src dst : String) : Except String Hypergraph :=
  match alLookup src g.nodes, alLookup dst g.nodes with
  | some _, some _ =>
    .ok ⟨alUpdate dst (linkAddInc src) (alUpdate src (linkAddOut dst) g.nodes)⟩
  | _, _ => .error (s!"Cannot create link: node {src} or {dst} not found")

/-- `removeLink`: filters the references out of both adjacency lists (no-op
on missing endpoints). -/
def removeLink (g : Hypergraph) (src dst : String) : Hypergraph :=
  let nodes1 := alUpdate src (fun n =>
    { n with outgoing := n.outgoing.filter (fun i => i ≠ dst) }) g.nodes
  let nodes2 := alUpdate dst (fun n =>
    { n with incoming := n.incoming.filter (fun i => i ≠ src) }) nodes1
  ⟨nodes2⟩

/-- `removeNode`: no-op when absent; otherwise severs all incident links
(iterating the incoming snapshot, then the — possibly already filtered —
current outgoing list) and deletes the entry. -/
def removeNode (g : Hypergraph) (id : String) : Hypergraph :=
  match alLookup id g.nodes with
  | none => g
  | some node =>
    let g1 := node.incoming.foldl (fun acc incomingId => removeLink acc incomingId id) g
    let out1 := match alLookup id g1.nodes with
      | some n => n.outgoing
      | none => []
    let g2 := out1.foldl (fun acc outgoingId => removeLink acc id outgoingId) g1
    ⟨alErase id g2.nodes⟩

/-- `getNode`. -/
def getNode (g : Hypergraph) (id : String) : Option HypergraphNode :=
  alLookup id g.nodes

/-- `getOutgoing`: resolve the outgoing ids, dropping dangling ones. -/
def getOutgoing (g : Hypergraph) (id : String) : List HypergraphNode :=
  match alLookup id g.nodes with
  | none => []
  | some node => node.outgoing.filterMap (fun outId => alLookup outId g.nodes)

/-- `getIncoming`. -/
def getIncoming (g : Hypergraph) (id : String) : List HypergraphNode :=
  match alLookup id g.nodes with
  | none => []
  | some node => node.incoming.filterMap (fun inId => alLookup inId g.nodes)

/-- Keys agree with the stored nodes' `id` fields (holds for every graph
built through `addNode`, which keys the map by `node.id`). -/
def WellKeyed (g : Hypergraph) : Prop :=
  ∀ p ∈ g.nodes, p.2.id = p.1

/-- The bidirectional adjacency invariant of the spec's data model: an edge
recorded on either side is recorded on both, between existing nodes. -/
def LinkConsistent (g : Hypergraph) : Prop :=
  (∀ a na b, alLookup a g.nodes = some na → b ∈ na.outgoing →
    ∃ nb, alLookup b g.nodes = some nb ∧ a ∈ nb.incoming) ∧
  (∀ b nb a, alLookup b g.nodes = some nb → a ∈ nb.incoming →
    ∃ na, alLookup a g.nodes = some na ∧ b ∈ na.outgoing)

/-- `g'` refines `g` by only shrinking adjacency lists: same nodes, same
ids, adjacency lists are subsets. -/
def GSub (g' g : Hypergraph) : Prop :=
  ∀ c n', alLookup c g'.nodes = some n' →
    ∃ n, alLookup c g.nodes = some n ∧ n'.id = n.id ∧
      (∀ z ∈ n'.outgoing, z ∈ n.outgoing) ∧
      (∀ z ∈ n'.incoming, z ∈ n.incoming)

/-- Example node `a` (empty adjacency, as built by `createHypergraphNode`). -/
def nodeA : HypergraphNode := ⟨"a", "doc", ⟨1, 0⟩, ⟨0, 0, false⟩, [], [], []⟩

/-- Example node `b`. -/
def nodeB : HypergraphNode := ⟨"b", "doc", ⟨1, 0⟩, ⟨0, 0, false⟩, [], [], []⟩

/-- Example graph holding `a` and `b`, unlinked. -/
def graphAB : Hypergraph := ⟨[("a", nodeA), ("b", nodeB)]⟩

/-- `graphAB` after `addLink('a','b')`. -/
def graphABLinked : Hypergraph :=
  ⟨[("a", { nodeA with outgoing := ["b"] }),
    ("b", { nodeB with incoming := ["a"] })]⟩

/-! ### Pattern matcher (`CognitivePatternMatcher`) -/

/-- `startsWith('$')`: the first character is `$`. -/
def startsWithDollar (s : String) : Bool :=
  match s.data with
  | [] => false
  | c :: _ => c == '$'

/-- `isVariable`: strings beginning with `$`. -/
def isVariable : PValue → Bool
  | .str s => startsWithDollar s
  | _ => false

/-- `getVariableName`: strip the leading `$`. -/
def getVariableName : PValue → String
  | .str s => s.drop 1
  | _ => "unknown"

/-- The mutable counters and bindings threaded through `matchRecursive`. -/
structure MatchState where
  totalFields : Nat
  matchedFields : Nat
  bindings : List (String × PValue)
deriving Repr

mutual

/-- The recursive worker of `calculateMatchConfidence` (counter increments
and variable bindings made explicit). When the kinds of pattern and input
differ (array vs object), the reference falls through to `===`, which is
false for structurally-built values; modelled by `scalarEq`. -/
def matchRecursive (p i : PValue) (st : MatchState) : Bool × MatchState :=
  let st1 := { st with totalFields := st.totalFields + 1 }
  if isVariable p then
    (true,
      { st1 with
        matchedFields := st1.matchedFields + 1
        bindings := alSet (getVariableName p) i st1.bindings })
  else
    match p, i with
    | .arr ps, .arr is =>
      if ps.length ≠ is.length then (false, st1)
      else
        match matchList ps is st1 with
        | (true, st') => (true, { st' with matchedFields := st'.matchedFields + 1 })
        | (false, st') => (false, st')
    | .obj pf, .obj if_ =>
      match matchFields pf if_ st1 with
      | (true, st') => (true, { st' with matchedFields := st'.matchedFields + 1 })
      | (false, st') => (false, st')
    | p, i =>
      if scalarEq p i then (true, { st1 with matchedFields := st1.matchedFields + 1 })
      else (false, st1)

/-- Element-wise matching of two same-length arrays, stopping at the first
failure. -/
def matchList (ps is : List PValue) (st : MatchState) : Bool × MatchState :=
  match ps, is with
  | p :: ps', i :: is' =>
    match matchRecursive p i st with
    | (true, st') => matchList ps' is' st'
    | (false, st') => (false, st')
  | _, _ => (true, st)

/-- Matching each pattern key against the input object, stopping at the
first missing key or failed value. -/
def matchFields (pf if_ : List (String × PValue)) (st : MatchState) :
    Bool × MatchState :=
  match pf with
  | [] => (true, st)
  | (key, pv) :: rest =>
    match alLookup key if_ with
    | none => (false, st)
    | some iv =>
      match matchRecursive pv iv st with
      | (true, st') => matchFields rest if_ st'
      | (false, st') => (false, st')

end

/-- `calculateMatchConfidence`: the matched/total field ratio on success,
0 on failure. -/
def calculateMatchConfidence (pattern input : PValue) : ℚ :=
  let r := matchRecursive pattern input ⟨0, 0, []⟩
  if r.1 then (r.2.matchedFields : ℚ) / (r.2.totalFields : ℚ) else 0

mutual

/-- A pattern with no `$`-variable tokens anywhere, and (as JavaScript object
literals guarantee) no duplicate keys in any object level. -/
def noVariables : PValue → Bool
  | .null => true
  | .bool _ => true
  | .num _ => true
  | .str s => !(startsWithDollar s)
  | .arr items => noVariablesList items
  | .obj fields =>
    decide ((fields.map Prod.fst).Nodup) && noVariablesFields fields

/-- `noVariables` over array elements. -/
def noVariablesList : List PValue → Bool
  | [] => true
  | x :: xs => noVariables x && noVariablesList xs

/-- `noVariables` over object fields. -/
def noVariablesFields : List (String × PValue) → Bool
  | [] => true
  | (_, v) :: rest => noVariables v && noVariablesFields rest

end

/-- A concrete variable-free pattern. -/
def patternExample : PValue :=
  .obj [("x", .num 1), ("y", .arr [.str "a", .null]), ("z", .bool true)]

/-! ### PLN inference engine (`CognitivePLNEngine`) -/

/-- `SymbolicRule` from `types.ts` (`vars` models the `variables` field,
whose name is reserved in Lean). -/
structure SymbolicRule where
  id : String
  name : String
  premise : List String
  conclusion : String
  truthValue : TruthValue
  vars : List (String × String)
deriving Repr, DecidableEq

/-- `InferenceResult` from `types.ts`. -/
structure InferenceResult where
  conclusion : String
  premises : List String
  rule : String
  truthValue : TruthValue
  confidence : ℚ
  steps : Nat
deriving Repr, DecidableEq

/-- The two stores of `CognitivePLNEngine`. -/
structure PLNEngine where
  rules : List (String × SymbolicRule)
  facts : List (String × TruthValue)
deriving Repr, DecidableEq

/-- `maxInferenceDepth`. -/
def maxInferenceDepth : Nat := 10

/-- Glob matching: `*` matches any run of characters, everything else is
literal — the behaviour of the reference's `^pattern.replace(/\*?/g, ...)$`
regexp on patterns without other regex metacharacters (the spec describes the
feature as a `*`-glob). -/
def globMatch : List Char → List Char → Bool
  | [], s => s.isEmpty
  | c :: ps, s =>
    if c = '*' then
      globMatch ps s ||
        (match s with
          | [] => false
          | _ :: s' => globMatch ('*' :: ps) s')
    else
      match s with
      | [] => false
      | c' :: s' => c = c' && globMatch ps s'
termination_by p s => (p.length, s.length)

/-- `isPatternMatch`: exact equality, `*`-glob, or `$`-variable. -/
def isPatternMatch (pattern fact : String) : Bool :=
  if pattern = fact then true
  else if pattern.data.contains '*' then globMatch pattern.data fact.data
  else if startsWithDollar pattern then true
  else false

/-- `canApplyRule`. -/
def canApplyRule (rule : SymbolicRule) (wm : List (String × TruthValue)) : Bool :=
  rule.premise.all (fun p =>
    alContains p wm || wm.any (fun e => isPatternMatch p e.1))

/-- The premise-collection loop of `applyRule`: exact lookup first, then the
first pattern match, else fail. -/
def collectPremises (wm : List (String × TruthValue)) :
    List String → Option (List TruthValue × List String)
  | [] => some ([], [])
  | p :: ps =>
    match alLookup p wm with
    | some tv =>
      match collectPremises wm ps with
      | some (tvs, ms) => some (tv :: tvs, p :: ms)
      | none => none
    | none =>
      match wm.find? (fun e => isPatternMatch p e.1) with
      | some e =>
        match collectPremises wm ps with
        | some (tvs, ms) => some (e.2 :: tvs, e.1 :: ms)
        | none => none
      | none => none

/-- The engine's private `combineTruthValues` over a premise list:
conjunction of strengths, iterated probabilistic-or of uncertainties. -/
def combineTruthValuesList (tvs : List TruthValue) : TruthValue :=
  match tvs with
  | [] => ⟨0, 1⟩
  | [tv] => tv
  | _ =>
    ⟨tvs.foldl (fun acc tv => acc * tv.strength) 1,
      min (tvs.foldl (fun acc tv => acc + tv.uncertainty * (1 - acc)) 0) 1⟩

/-- The engine's `combineRuleTruthValue` (deduction formula). -/
def combineRuleTruthValue (ruleTruthValue premiseTruthValue : TruthValue) :
    TruthValue :=
  ⟨ruleTruthValue.strength * premiseTruthValue.strength,
    min (ruleTruthValue.uncertainty + premiseTruthValue.uncertainty
      - ruleTruthValue.uncertainty * premiseTruthValue.uncertainty) 1⟩

/-- The engine's `calculateConfidence`
(strength × (1 − uncertainty) of the combined truth value). -/
def calculateConfidenceR (ruleTruthValue premiseTruthValue : TruthValue) : ℚ :=
  let c := combineRuleTruthValue ruleTruthValue premiseTruthValue
  c.strength * (1 - c.uncertainty)

/-- `applyRule`. -/
def applyRule (rule : SymbolicRule) (wm : List (String × TruthValue)) :
    Option InferenceResult :=
  match collectPremises wm rule.premise with
  | none => none
  | some (tvs, matched) =>
    let combined := combineTruthValuesList tvs
    some ⟨rule.conclusion, matched, rule.id,
      combineRuleTruthValue rule.truthValue combined,
      calculateConfidenceR rule.truthValue combined, 1⟩

/-- One `for (const rule of this.rules.values())` pass of `forwardChain`. -/
def fcPass (rs : List SymbolicRule) (wm : List (String × TruthValue))
    (res : List InferenceResult) (stepNum : Nat) (changed : Bool) :
    List (String × TruthValue) × List InferenceResult × Bool :=
  match rs with
  | [] => (wm, res, changed)
  | r :: rest =>
    if canApplyRule r wm then
      match applyRule r wm with
      | some inf =>
        if alContains inf.conclusion wm then fcPass rest wm res stepNum changed
        else
          fcPass rest (alSet inf.conclusion inf.truthValue wm)
            (res ++ [{ inf with steps := stepNum }]) stepNum true
      | none => fcPass rest wm res stepNum changed
    else fcPass rest wm res stepNum changed

/-- The `while (changed && steps < maxInferenceDepth)` loop of
`forwardChain`. -/
def fcLoop (rs : List SymbolicRule) (fuel stepNum : Nat)
    (wm : List (String × TruthValue)) (res : List InferenceResult) :
    List InferenceResult :=
  match fuel with
  | 0 => res
  | fuel + 1 =>
    match fcPass rs wm res stepNum false with
    | (wm', res', changed) =>
      if changed then fcLoop rs fuel (stepNum + 1) wm' res' else res'

/-- `results.sort((a, b) => b.confidence - a.confidence)`: a stable
descending sort, modelled by the stable insertion sort. -/
def sortByConfidenceDesc (l : List InferenceResult) : List InferenceResult :=
  List.insertionSort (fun a b => b.confidence ≤ a.confidence) l

/-- `forwardChain`. -/
def forwardChain (eng : PLNEngine) (premises : List String) :
    List InferenceResult :=
  let wm0 := premises.foldl (fun wm p => alSet p ⟨1, 0⟩ wm) []
  sortByConfidenceDesc
    (fcLoop (eng.rules.map Prod.snd) maxInferenceDepth 1 wm0 [])

/-- The recursive `backtrack` closure of `backwardChain`. The visited set is
created once per search and only ever grows (`visited.add`, never removed),
also across failed branches; the fuel argument only realises termination
(`maxInferenceDepth + 2` always suffices, since `depth` grows by 1 per
level and the guard fires at `depth = 11`). -/
def backtrack (rules : List SymbolicRule) (facts : List (String × TruthValue)) :
    Nat → Nat → String → List String → List InferenceResult × List String
  | 0, _, _, visited => ([], visited)
  | fuel + 1, depth, goal, visited =>
    if decide (depth > maxInferenceDepth) || visited.contains goal then
      ([], visited)
    else
      let visited1 := goal :: visited
      match alLookup goal facts with
      | some tv => ([⟨goal, [], "fact", tv, tv.strength, depth⟩], visited1)
      | none =>
        rules.foldl (fun (acc : List InferenceResult × List String) rule =>
          if rule.conclusion = goal then
            match rule.premise.foldl
              (fun (st : Option (List InferenceResult) × List String) p =>
                match st with
                | (none, vis) => (none, vis)
                | (some proofs, vis) =>
                  match backtrack rules facts fuel (depth + 1) p vis with
                  | (rs, vis') =>
                    if rs.isEmpty then (none, vis')
                    else (some (proofs ++ rs), vis'))
              (some [], acc.2) with
            | (some proofs, vis') =>
              let combined :=
                combineTruthValuesList (proofs.map (fun pr => pr.truthValue))
              (acc.1 ++ [⟨goal, rule.premise, rule.id,
                combineRuleTruthValue rule.truthValue combined,
                calculateConfidenceR rule.truthValue combined, depth⟩], vis')
            | (none, vis') => (acc.1, vis')
          else acc) (([], visited1) : List InferenceResult × List String)

/-- `backwardChain`. -/
def backwardChain (eng : PLNEngine) (goal : String) : List InferenceResult :=
  sortByConfidenceDesc
    (backtrack (eng.rules.map Prod.snd) eng.facts (maxInferenceDepth + 2)
      0 goal []).1

/-- The engine of the C5 scenario: a single rule `p ∧ q → r` at strength
0.9, uncertainty 0.1. -/
def engC5 : PLNEngine :=
  ⟨[("rule1", ⟨"rule1", "rule1", ["p", "q"], "r", ⟨9/10, 1/10⟩, []⟩)], []⟩

/-- An engine with one fact `x` and two rules both deriving `g` from `x`. -/
def engC6 : PLNEngine :=
  ⟨[("r1", ⟨"r1", "r1", ["x"], "g", ⟨1/2, 0⟩, []⟩),
    ("r2", ⟨"r2", "r2", ["x"], "g", ⟨1/2, 0⟩, []⟩)],
   [("x", ⟨1, 0⟩)]⟩

/-! ### Kernel registry (`CognitiveKernelRegistry`) -/

/-- The eight kernel type tags. -/
inductive KernelType where
  | hypergraphPrimitive
  | neuralSymbolicBridge
  | attentionAllocation
  | patternMatcher
  | perceptionLayer
  | reasoningEngine
  | memorySystem
  | actionSelector
deriving Repr, DecidableEq

/-- `TensorShape` from `types.ts`. -/
structure TensorShape where
  dimensions : List ℚ
  dtype : String
  complexity : ℚ
deriving Repr, DecidableEq

/-- `NeuralPerceptionLayer` from `types.ts`. -/
structure NeuralPerceptionLayer where
  name : String
  inputShape : TensorShape
  outputShape : TensorShape
  weights : Option (List ℚ)
  biases : Option (List ℚ)
  activation : String
deriving Repr, DecidableEq

/-- `CognitiveKernel` from `types.ts`. -/
structure CognitiveKernel where
  id : String
  name : String
  description : String
  type : KernelType
  tensorShape : TensorShape
  complexity : ℚ
  dependencies : List String
  hypergraphNodes : List HypergraphNode
  neuralLayers : Option (List NeuralPerceptionLayer)
  symbolicRules : Option (List SymbolicRule)
  attentionBudget : ℚ
  priority : ℚ
  metadata : List (String × PValue)
deriving Repr

/-- `KernelState` from `types.ts` (`Date` modelled as an abstract tick
passed in by the caller). -/
structure KernelState where
  id : String
  active : Bool
  lastActivation : Nat
  activationCount : Nat
  currentAttention : ℚ
  performance : ℚ
  errors : List String
  outputs : PValue
deriving Repr

/-- The two maps of `CognitiveKernelRegistry`. -/
structure KernelRegistry where
  kernels : List (String × CognitiveKernel)
  states : List (String × KernelState)
deriving Repr

/-- The error taxonomy relevant to `activate`. -/
inductive RegError where
  | notFound (msg : String)
  | handlerFailure (msg : String)
deriving Repr, DecidableEq

/-- `register`. -/
def register (reg : KernelRegistry) (kernel : CognitiveKernel) (now : Nat) :
    KernelRegistry :=
  { kernels := alSet kernel.id kernel reg.kernels
    states := alSet kernel.id
      ⟨kernel.id, false, now, 0, 0, 1, [], .obj []⟩ reg.states }

/-- `unregister`. -/
def unregister (reg : KernelRegistry) (id : String) : KernelRegistry :=
  ⟨alErase id reg.kernels, alErase id reg.states⟩

/-- `getState`. -/
def getState (reg : KernelRegistry) (id : String) : Option KernelState :=
  alLookup id reg.states

/-- `activate`, parameterized by the per-type `processKernel` dispatch (an
arbitrary handler returning a result or throwing): marks the state active,
bumps the counter and timestamp, clears prior errors, and on handler failure
records the single error message, demotes performance and re-raises; the
`finally` clears the active flag on both paths. A missing kernel id rejects
with the not-found error before touching any state. -/
def activate (process : CognitiveKernel → Option PValue → Except String PValue)
    (reg : KernelRegistry) (id : String) (input : Option PValue) (now : Nat) :
    Except RegError PValue × KernelRegistry :=
  match alLookup id reg.kernels, alLookup id reg.states with
  | some kernel, some state =>
    let state1 := { state with
      active := true
      lastActivation := now
      activationCount := state.activationCount + 1
      errors := [] }
    match process kernel input with
    | .ok result =>
      let state2 := { state1 with
        outputs := result
        performance := min 1 (state1.performance + 1/100)
        active := false }
      (.ok result, { reg with states := alSet id state2 reg.states })
    | .error msg =>
      let state2 := { state1 with
        errors := state1.errors ++ [msg]
        performance := max 0 (state1.performance - 1/10)
        active := false }
      (.error (.handlerFailure msg), { reg with states := alSet id state2 reg.states })
  | _, _ => (.error (.notFound ("Kernel " ++ id ++ " not found")), reg)

/-- `deactivate`. -/
def deactivate (reg : KernelRegistry) (id : String) : KernelRegistry :=
  { reg with
    states := alUpdate id (fun st => { st with active := false }) reg.states }

/-- A registry operation. -/
inductive RegOp where
  | register (kernel : CognitiveKernel) (now : Nat)
  | unregister (id : String)
  | activate (id : String) (input : Option PValue) (now : Nat)
  | deactivate (id : String)

/-- Dispatch one registry operation (activation results discarded). -/
def regStep (process : CognitiveKernel → Option PValue → Except String PValue)
    (reg : KernelRegistry) : RegOp → KernelRegistry
  | .register k now => register reg k now
  | .unregister id => unregister reg id
  | .activate id input now => (activate process reg id input now).2
  | .deactivate id => deactivate reg id

/-- Run a sequence of registry operations. -/
def runRegOps (process : CognitiveKernel → Option PValue → Except String PValue)
    (reg : KernelRegistry) : List RegOp → KernelRegistry
  | [] => reg
  | op :: rest => runRegOps process (regStep process reg op) rest

/-- Every kernel state holds at most one error message. -/
def ErrBound (reg : KernelRegistry) : Prop :=
  ∀ p ∈ reg.states, p.2.errors.length ≤ 1

/-- A concrete kernel configuration. -/
def kernelEx : CognitiveKernel :=
  ⟨"k", "kernel", "", .reasoningEngine, ⟨[1], "float32", 1⟩, 1, [], [],
    none, none, 1/10, 5, []⟩

/-! ## Theorems -/

theorem alLookup_alUpdate (k j : String) (f : α → α) (l : List (String × α)) :
    alLookup j (alUpdate k f l) =
      if j = k then (alLookup k l).map f else alLookup j l := by
  induction l with
  | nil => simp [alLookup, alUpdate, apply_ite]
  | cons p rest ih =>
    obtain ⟨k', v⟩ := p
    by_cases hk : k' = k
    · by_cases hj : k' = j
      · subst hk; subst hj
        simp [alLookup, alUpdate]
      · subst hk
        have hjk : ¬ j = k' := fun h => hj h.symm
        simp [alLookup, alUpdate, hj, hjk]
    · by_cases hj : k' = j
      · subst hj
        have hjk : ¬ k' = k := hk
        simp [alLookup, alUpdate, hk, hjk]
      · simp [alLookup, alUpdate, hk, hj, ih]

theorem alLookup_append (j : String) (l₁ l₂ : List (String × α)) :
    alLookup j (l₁ ++ l₂) =
      match alLookup j l₁ with
      | some v => some v
      | none => alLookup j l₂ := by
  induction l₁ with
  | nil => simp [alLookup]
  | cons p rest ih =>
    obtain ⟨k', v⟩ := p
    by_cases hj : k' = j
    · simp [alLookup, hj]
    · simp [alLookup, hj, ih]

theorem alLookup_alSet (k j : String) (v : α) (l : List (String × α)) :
    alLookup j (alSet k v l) = if j = k then some v else alLookup j l := by
  unfold alSet alContains
  by_cases hc : (alLookup k l).isSome = true
  · rw [if_pos hc]
    rw [alLookup_alUpdate]
    by_cases hj : j = k
    · subst hj
      obtain ⟨w, hw⟩ := Option.isSome_iff_exists.mp hc
      simp [hw]
    · simp [hj]
  · rw [if_neg hc]
    rw [alLookup_append]
    have hk : alLookup k l = none := by
      cases h : alLookup k l with
      | none => rfl
      | some w => rw [h] at hc; simp at hc
    by_cases hj : j = k
    · subst hj
      simp [hk, alLookup]
    · have hj' : ¬ k = j := fun h => hj h.symm
      cases h : alLookup j l with
      | none => simp [alLookup, hj, hj']
      | some w => simp [alLookup, hj, hj']

/-- C7: `combineTruthValues` is commutative, and its strength component is
associative: the strength of `combine(combine(a,b),c)` equals the strength of
`combine(a,combine(b,c))` (exactly, hence within any floating-point
tolerance). -/
theorem combineTruthValues_comm_and_strength_assoc (a b c : TruthValue) :
    combineTruthValues a b = combineTruthValues b a ∧
    (combineTruthValues (combineTruthValues a b) c).strength =
      (combineTruthValues a (combineTruthValues b c)).strength := by
  constructor
  · unfold combineTruthValues
    have hs : a.strength * b.strength = b.strength * a.strength := mul_comm _ _
    have hu : a.uncertainty + b.uncertainty - a.uncertainty * b.uncertainty =
        b.uncertainty + a.uncertainty - b.uncertainty * a.uncertainty := by ring
    rw [hs, hu]
  · unfold combineTruthValues
    exact mul_assoc _ _ _

theorem foldl_add_eq_sum (l : List (String × ℚ)) (a : ℚ) :
    l.foldl (fun sum p => sum + p.2) a = a + (l.map Prod.snd).sum := by
  induction l generalizing a with
  | nil => simp
  | cons p rest ih => simp [List.foldl, ih, add_assoc]

theorem getTotalAllocated_eq_sum (s : AllocatorState) :
    getTotalAllocated s = (s.allocations.map Prod.snd).sum := by
  unfold getTotalAllocated
  rw [foldl_add_eq_sum, zero_add]

theorem alErase_cons (k : String) (p : String × α) (rest : List (String × α)) :
    alErase k (p :: rest) =
      if p.1 = k then alErase k rest else p :: alErase k rest := by
  by_cases hk : p.1 = k <;> simp [alErase, List.filter_cons, hk]

theorem alLookup_alErase (k j : String) (l : List (String × α)) (h : ¬ j = k) :
    alLookup j (alErase k l) = alLookup j l := by
  induction l with
  | nil => rfl
  | cons p rest ih =>
    obtain ⟨k', v⟩ := p
    rw [alErase_cons]
    by_cases hk : k' = k
    · subst hk
      have hj : ¬ k' = j := fun hkj => h hkj.symm
      simp [alLookup, hj, ih]
    · by_cases hj : k' = j
      · subst hj
        simp [alLookup, hk]
      · simp [alLookup, hk, hj, ih]

theorem sum_values_alErase_le (k : String) (l : List (String × ℚ))
    (h : ∀ p ∈ l, 0 ≤ p.2) :
    ((alErase k l).map Prod.snd).sum ≤ (l.map Prod.snd).sum := by
  induction l with
  | nil => simp [alErase]
  | cons p rest ih =>
    have hrest : ∀ q ∈ rest, 0 ≤ q.2 := fun q hq => h q (List.mem_cons_of_mem _ hq)
    have hp : 0 ≤ p.2 := h p (List.mem_cons_self _ _)
    have ihr := ih hrest
    rw [alErase_cons]
    by_cases hk : p.1 = k
    · rw [if_pos hk]
      simp only [List.map_cons, List.sum_cons]
      linarith
    · rw [if_neg hk]
      simp only [List.map_cons, List.sum_cons]
      linarith

theorem lookup_add_erase_le (k : String) (l : List (String × ℚ))
    (h : ∀ p ∈ l, 0 ≤ p.2) :
    (alLookup k l).getD 0 + ((alErase k l).map Prod.snd).sum
      ≤ (l.map Prod.snd).sum := by
  induction l with
  | nil => simp [alLookup, alErase]
  | cons p rest ih =>
    obtain ⟨k', v⟩ := p
    have hrest : ∀ q ∈ rest, 0 ≤ q.2 := fun q hq => h q (List.mem_cons_of_mem _ hq)
    rw [alErase_cons]
    by_cases hk : k' = k
    · rw [if_pos hk]
      simp only [alLookup, if_pos hk, Option.getD_some]
      have herase := sum_values_alErase_le k rest hrest
      simp only [List.map_cons, List.sum_cons]
      linarith
    · rw [if_neg hk]
      simp only [alLookup, if_neg hk]
      have ihr := ih hrest
      simp only [List.map_cons, List.sum_cons]
      linarith

theorem sum_lookups_le (ks : List String) (l : List (String × ℚ))
    (hnd : ks.Nodup) (h : ∀ p ∈ l, 0 ≤ p.2) :
    (ks.map (fun k => (alLookup k l).getD 0)).sum ≤ (l.map Prod.snd).sum := by
  induction ks generalizing l with
  | nil =>
    simp only [List.map_nil, List.sum_nil]
    exact List.sum_nonneg (by
      intro x hx
      obtain ⟨p, hp, rfl⟩ := List.mem_map.mp hx
      exact h p hp)
  | cons k ks ih =>
    have hk_not : k ∉ ks := (List.nodup_cons.mp hnd).1
    have hks : ks.Nodup := (List.nodup_cons.mp hnd).2
    simp only [List.map_cons, List.sum_cons]
    have hmap : ks.map (fun j => (alLookup j l).getD 0)
        = ks.map (fun j => (alLookup j (alErase k l)).getD 0) := by
      refine List.map_congr_left ?_
      intro j hj
      have : ¬ j = k := fun hjk => hk_not (hjk ▸ hj)
      rw [alLookup_alErase k j l this]
    rw [hmap]
    have herase_nonneg : ∀ p ∈ alErase k l, 0 ≤ p.2 := by
      intro p hp
      exact h p (List.mem_of_mem_filter hp)
    have hih := ih (alErase k l) hks herase_nonneg
    have hsplit := lookup_add_erase_le k l h
    linarith

/-- C1: with budget 1.0, modules `{perception: 0.3, reasoning: 0.4,
memory: 0.3}` and emergency pool 0.1 (any decay rate and focus threshold),
`getAvailable()` is 0, `allocate('perception', 0.1)` succeeds through
redistribution, and `getAllocation('perception')` afterwards is 0.4. -/
theorem allocator_scenario_emergency_redistribution (decayRate focusThreshold : ℚ) :
    getAvailable (mkAllocator
      ⟨1, [("perception", 3/10), ("reasoning", 2/5), ("memory", 3/10)],
        decayRate, focusThreshold, 1/10⟩) = 0 ∧
    (allocate (mkAllocator
      ⟨1, [("perception", 3/10), ("reasoning", 2/5), ("memory", 3/10)],
        decayRate, focusThreshold, 1/10⟩) "perception" (1/10)).1 = true ∧
    getAllocation (allocate (mkAllocator
      ⟨1, [("perception", 3/10), ("reasoning", 2/5), ("memory", 3/10)],
        decayRate, focusThreshold, 1/10⟩) "perception" (1/10)).2 "perception"
      = 2/5 := by
  refine ⟨?_, ?_, ?_⟩ <;>
    norm_num [mkAllocator, getAvailable, getAllocation, getTotalAllocated,
      allocate, canRedistribute, redistributeWithAmount, redisLoop,
      alSet, alContains, alLookup, alUpdate, List.foldl,
      List.insertionSort, List.orderedInsert]

/-- C3: `simulateCompetition` (a pure function of the allocator state and the
demand map): when total demand is at most the budget, every module is granted
exactly its demand (the result is the demand map itself); when total demand
exceeds the budget, each module is granted
`min(demand, budget × currentAllocation / totalAllocated)` and — for a
well-formed state (distinct demand keys, nonnegative allocations, positive
total allocation, nonnegative budget) — the granted amounts sum to at most
the budget. -/
theorem simulateCompetition_spec (s : AllocatorState)
    (demands : List (String × ℚ)) :
    ((demands.map Prod.snd).sum ≤ s.budget →
      simulateCompetition s demands = demands) ∧
    (s.budget < (demands.map Prod.snd).sum →
      simulateCompetition s demands =
        demands.map (fun p =>
          (p.1, min p.2
            (s.budget * (getAllocation s p.1 / getTotalAllocated s)))) ∧
      ((demands.map Prod.fst).Nodup → (∀ p ∈ s.allocations, 0 ≤ p.2) →
        0 < getTotalAllocated s → 0 ≤ s.budget →
        ((simulateCompetition s demands).map Prod.snd).sum ≤ s.budget)) := by
  have htd : demands.foldl (fun sum p => sum + p.2) 0 = (demands.map Prod.snd).sum := by
    rw [foldl_add_eq_sum, zero_add]
  constructor
  · intro hle
    unfold simulateCompetition
    rw [htd, if_neg (not_lt.mpr hle)]
  · intro hgt
    have heq : simulateCompetition s demands =
        demands.map (fun p =>
          (p.1, min p.2
            (s.budget * (getAllocation s p.1 / getTotalAllocated s)))) := by
      unfold simulateCompetition
      rw [htd, if_pos hgt]
      rfl
    refine ⟨heq, ?_⟩
    intro hnd hnn hT hB
    rw [heq]
    set T := getTotalAllocated s with hTdef
    calc ((demands.map (fun p =>
            (p.1, min p.2 (s.budget * (getAllocation s p.1 / T))))).map
              Prod.snd).sum
        = (demands.map (fun p =>
            min p.2 (s.budget * (getAllocation s p.1 / T)))).sum := by
          rw [List.map_map]; rfl
      _ ≤ (demands.map (fun p => s.budget * (getAllocation s p.1 / T))).sum :=
          List.sum_le_sum (fun p _ => min_le_right _ _)
      _ = s.budget * (demands.map (fun p => getAllocation s p.1 / T)).sum := by
          rw [← List.sum_map_mul_left]
      _ = s.budget * ((demands.map (fun p => getAllocation s p.1)).sum / T) := by
          congr 1
          simp only [div_eq_mul_inv]
          exact List.sum_map_mul_right _ _ _
      _ ≤ s.budget := by
          have hsum : (demands.map (fun p => getAllocation s p.1)).sum ≤ T := by
            have : demands.map (fun p => getAllocation s p.1)
                = (demands.map Prod.fst).map
                    (fun k => (alLookup k s.allocations).getD 0) := by
              rw [List.map_map]; rfl
            rw [this, hTdef, getTotalAllocated_eq_sum]
            exact sum_lookups_le _ _ hnd hnn
          have hquot : (demands.map (fun p => getAllocation s p.1)).sum / T ≤ 1 :=
            (div_le_one hT).mpr hsum
          calc s.budget * ((demands.map (fun p => getAllocation s p.1)).sum / T)
              ≤ s.budget * 1 := mul_le_mul_of_nonneg_left hquot hB
            _ = s.budget := mul_one _

theorem PW_refl (l : List (String × ℚ)) : PW l l := by
  induction l with
  | nil => exact List.Forall₂.nil
  | cons p rest ih => exact List.Forall₂.cons ⟨rfl, le_refl _⟩ ih

theorem PW_trans {a b c : List (String × ℚ)} (hab : PW a b) (hbc : PW b c) :
    PW a c := by
  induction hab generalizing c with
  | nil => cases hbc; exact List.Forall₂.nil
  | cons h _ ih =>
    cases hbc with
    | cons h' t' =>
      exact List.Forall₂.cons ⟨h.1.trans h'.1, h.2.trans h'.2⟩ (ih t')

theorem PW_keys {l l' : List (String × ℚ)} (h : PW l l') :
    l.map Prod.fst = l'.map Prod.fst := by
  induction h with
  | nil => rfl
  | cons hpq _ ih => simp [hpq.1, ih]

theorem PW_sum {l l' : List (String × ℚ)} (h : PW l l') :
    (l.map Prod.snd).sum ≤ (l'.map Prod.snd).sum := by
  induction h with
  | nil => simp
  | cons hpq _ ih =>
    simp only [List.map_cons, List.sum_cons]
    exact add_le_add hpq.2 ih

theorem PW_sum_sub (j : String) {l l' : List (String × ℚ)} (h : PW l l') :
    (l.map Prod.snd).sum - (alLookup j l).getD 0
      ≤ (l'.map Prod.snd).sum - (alLookup j l').getD 0 := by
  induction h with
  | nil => simp
  | @cons p q t t' hpq htail ih =>
    obtain ⟨hk, hv⟩ := hpq
    simp only [List.map_cons, List.sum_cons, alLookup]
    by_cases hj : p.1 = j
    · rw [if_pos hj, if_pos (hk ▸ hj)]
      simp only [Option.getD_some]
      have := PW_sum htail
      linarith
    · rw [if_neg hj, if_neg (hk ▸ hj)]
      linarith

theorem PW_alUpdate_le (k : String) (v a : ℚ) (l : List (String × ℚ))
    (hl : alLookup k l = some a) (hv : v ≤ a) :
    PW (alUpdate k (fun _ => v) l) l := by
  induction l with
  | nil => exact List.Forall₂.nil
  | cons p rest ih =>
    obtain ⟨k', w⟩ := p
    simp only [alUpdate]
    by_cases hk : k' = k
    · rw [if_pos hk]
      simp only [alLookup, if_pos hk, Option.some.injEq] at hl
      exact List.Forall₂.cons ⟨rfl, hl ▸ hv⟩ (PW_refl rest)
    · rw [if_neg hk]
      simp only [alLookup, if_neg hk] at hl
      exact List.Forall₂.cons ⟨rfl, le_refl _⟩ (ih hl)

theorem alSet_eq_alUpdate (k : String) (v a : ℚ) (l : List (String × ℚ))
    (h : alLookup k l = some a) :
    alSet k v l = alUpdate k (fun _ => v) l := by
  unfold alSet alContains
  rw [h]
  rfl

theorem alLookup_mem {k : String} {v : α} {l : List (String × α)}
    (h : alLookup k l = some v) : (k, v) ∈ l := by
  induction l with
  | nil => simp [alLookup] at h
  | cons p rest ih =>
    obtain ⟨k', w⟩ := p
    by_cases hk : k' = k
    · subst hk
      simp only [alLookup, if_true, Option.some.injEq] at h
      subst h
      exact List.mem_cons_self _ _
    · simp only [alLookup, if_neg hk] at h
      exact List.mem_cons_of_mem _ (ih h)

theorem lookupD_nonneg {l : List (String × ℚ)} (hnn : ∀ p ∈ l, 0 ≤ p.2)
    (k : String) : 0 ≤ (alLookup k l).getD 0 := by
  cases h : alLookup k l with
  | none => simp
  | some v =>
    simpa using hnn (k, v) (alLookup_mem h)

theorem alSet_nonneg {l : List (String × ℚ)} {v : ℚ}
    (hnn : ∀ p ∈ l, 0 ≤ p.2) (hv : 0 ≤ v) (k : String) :
    ∀ p ∈ alSet k v l, 0 ≤ p.2 := by
  unfold alSet
  by_cases hc : alContains k l
  · rw [if_pos hc]
    clear hc
    induction l with
    | nil => intro p hp; simp [alUpdate] at hp
    | cons q rest ih =>
      obtain ⟨k', w⟩ := q
      intro p hp
      simp only [alUpdate] at hp
      by_cases hk : k' = k
      · rw [if_pos hk] at hp
        rcases List.mem_cons.mp hp with h | h
        · subst h; exact hv
        · exact hnn p (List.mem_cons_of_mem _ h)
      · rw [if_neg hk] at hp
        rcases List.mem_cons.mp hp with h | h
        · subst h; exact hnn _ (List.mem_cons_self _ _)
        · exact ih (fun q hq => hnn q (List.mem_cons_of_mem _ hq)) p h
  · rw [if_neg hc]
    intro p hp
    rcases List.mem_append.mp hp with h | h
    · exact hnn p h
    · simp only [List.mem_singleton] at h
      subst h
      exact hv

theorem keys_alUpdate (k : String) (f : α → α) (l : List (String × α)) :
    (alUpdate k f l).map Prod.fst = l.map Prod.fst := by
  induction l with
  | nil => rfl
  | cons p rest ih =>
    obtain ⟨k', v⟩ := p
    by_cases hk : k' = k <;> simp [alUpdate, hk, ih]

theorem alLookup_eq_none {k : String} {l : List (String × α)} :
    alLookup k l = none ↔ k ∉ l.map Prod.fst := by
  induction l with
  | nil => simp [alLookup]
  | cons p rest ih =>
    obtain ⟨k', v⟩ := p
    by_cases hk : k' = k
    · subst hk
      simp [alLookup]
    · simp only [alLookup, if_neg hk, List.map_cons, List.mem_cons, ih]
      constructor
      · intro h hmem
        rcases hmem with h' | h'
        · exact hk h'.symm
        · exact h h'
      · intro h hmem
        exact h (Or.inr hmem)

theorem keys_alSet_nodup {l : List (String × ℚ)} {k : String} {v : ℚ}
    (h : (l.map Prod.fst).Nodup) : ((alSet k v l).map Prod.fst).Nodup := by
  unfold alSet
  by_cases hc : alContains k l
  · rw [if_pos hc, keys_alUpdate]
    exact h
  · rw [if_neg hc]
    have hnone : alLookup k l = none := by
      unfold alContains at hc
      cases hl : alLookup k l with
      | none => rfl
      | some w => rw [hl] at hc; simp at hc
    have hnotin : k ∉ l.map Prod.fst := alLookup_eq_none.mp hnone
    simp only [List.map_append, List.map_cons, List.map_nil]
    rw [List.nodup_append]
    refine ⟨h, List.nodup_singleton _, ?_⟩
    intro a ha hak
    simp only [List.mem_singleton] at hak
    exact hnotin (hak ▸ ha)

theorem sum_alSet (k : String) (v : ℚ) (l : List (String × ℚ)) :
    ((alSet k v l).map Prod.snd).sum
      = (l.map Prod.snd).sum - (alLookup k l).getD 0 + v := by
  unfold alSet alContains
  cases hl : alLookup k l with
  | none =>
    simp only [hl, Option.isSome_none, Bool.false_eq_true, if_false,
      Option.getD_none, List.map_append, List.sum_append, List.map_cons,
      List.map_nil, List.sum_cons, List.sum_nil]
    ring
  | some a =>
    simp only [hl, Option.isSome_some, if_true, Option.getD_some]
    induction l with
    | nil => simp [alLookup] at hl
    | cons p rest ih =>
      obtain ⟨k', w⟩ := p
      by_cases hk : k' = k
      · subst hk
        simp only [alLookup, if_true, Option.some.injEq] at hl
        subst hl
        simp only [alUpdate, if_true, List.map_cons, List.sum_cons]
        ring
      · simp only [alLookup, if_neg hk] at hl
        simp only [alUpdate, if_neg hk, List.map_cons, List.sum_cons, ih hl]
        ring

theorem alLookup_of_mem_nodup {l : List (String × α)} {k : String} {v : α}
    (h : (l.map Prod.fst).Nodup) (hm : (k, v) ∈ l) : alLookup k l = some v := by
  induction l with
  | nil => simp at hm
  | cons p rest ih =>
    obtain ⟨k', w⟩ := p
    simp only [List.map_cons, List.nodup_cons] at h
    rcases List.mem_cons.mp hm with heq | hmem
    · obtain ⟨h1, h2⟩ := Prod.mk.injEq .. ▸ heq
      injection heq with h1 h2
      subst h1; subst h2
      simp [alLookup]
    · by_cases hk : k' = k
      · subst hk
        exfalso
        exact h.1 (List.mem_map.mpr ⟨(k', v), hmem, rfl⟩)
      · simp only [alLookup, if_neg hk]
        exact ih h.2 hmem

theorem redisLoop_spec (entries : List (String × ℚ)) (deficit : ℚ) :
    ∀ (red : ℚ) (allocs : List (String × ℚ)),
    (∀ e ∈ entries, alLookup e.1 allocs = some e.2) →
    ((entries.map Prod.fst).Nodup) →
    (∀ p ∈ allocs, 0 ≤ p.2) →
    PW (redisLoop entries deficit red allocs) allocs ∧
    (∀ p ∈ redisLoop entries deficit red allocs, 0 ≤ p.2) := by
  induction entries with
  | nil =>
    intro red allocs _ _ hnn
    exact ⟨PW_refl _, hnn⟩
  | cons e rest ih =>
    intro red allocs hinv hnd hnn
    obtain ⟨m, a⟩ := e
    simp only [redisLoop]
    by_cases hstop : red ≥ deficit
    · rw [if_pos hstop]
      exact ⟨PW_refl _, hnn⟩
    · rw [if_neg hstop]
      set reduction := min (a * (1 / 10)) (deficit - red) with hreddef
      have hma : alLookup m allocs = some a := hinv (m, a) (List.mem_cons_self _ _)
      have ha0 : 0 ≤ a := by simpa using hnn (m, a) (alLookup_mem hma)
      have hr0 : 0 ≤ reduction :=
        le_min (mul_nonneg ha0 (by norm_num)) (by linarith [lt_of_not_ge hstop])
      have hred_le : reduction ≤ a :=
        le_trans (min_le_left _ _) (by linarith)
      have hnd2 : (m :: rest.map Prod.fst).Nodup := by simpa using hnd
      have hm_not : m ∉ rest.map Prod.fst := (List.nodup_cons.mp hnd2).1
      have hnd' : (rest.map Prod.fst).Nodup := (List.nodup_cons.mp hnd2).2
      have hset : alSet m (a - reduction) allocs
          = alUpdate m (fun _ => a - reduction) allocs :=
        alSet_eq_alUpdate m _ a allocs hma
      have hPWstep : PW (alSet m (a - reduction) allocs) allocs := by
        rw [hset]
        exact PW_alUpdate_le m (a - reduction) a allocs hma (by linarith)
      have hnn' : ∀ p ∈ alSet m (a - reduction) allocs, 0 ≤ p.2 :=
        alSet_nonneg hnn (by linarith) m
      have hinv' : ∀ e ∈ rest, alLookup e.1 (alSet m (a - reduction) allocs)
          = some e.2 := by
        intro e he
        have hne : ¬ e.1 = m := fun h => hm_not (List.mem_map.mpr ⟨e, he, h⟩)
        rw [hset, alLookup_alUpdate, if_neg hne]
        exact hinv e (List.mem_cons_of_mem _ he)
      obtain ⟨hPWrec, hnnrec⟩ :=
        ih (red + reduction) (alSet m (a - reduction) allocs) hinv' hnd' hnn'
      exact ⟨PW_trans hPWrec hPWstep, hnnrec⟩

theorem redistribute_spec (s : AllocatorState) (amt : ℚ)
    (hnn : ∀ p ∈ s.allocations, 0 ≤ p.2)
    (hnd : (s.allocations.map Prod.fst).Nodup) :
    PW (redistributeWithAmount s amt).allocations s.allocations ∧
    (∀ p ∈ (redistributeWithAmount s amt).allocations, 0 ≤ p.2) ∧
    (redistributeWithAmount s amt).budget = s.budget ∧
    (redistributeWithAmount s amt).config = s.config := by
  unfold redistributeWithAmount
  by_cases h : getAvailable s ≥ amt
  · rw [if_pos h]
    exact ⟨PW_refl _, hnn, rfl, rfl⟩
  · rw [if_neg h]
    have hperm :
        List.Perm
          (List.insertionSort (fun a b : String × ℚ => a.2 ≤ b.2) s.allocations)
          s.allocations := List.perm_insertionSort _ _
    have hinv : ∀ e ∈ List.insertionSort (fun a b : String × ℚ => a.2 ≤ b.2)
        s.allocations, alLookup e.1 s.allocations = some e.2 := by
      intro e he
      obtain ⟨m, a⟩ := e
      exact alLookup_of_mem_nodup hnd (hperm.mem_iff.mp he)
    have hndsorted :
        ((List.insertionSort (fun a b : String × ℚ => a.2 ≤ b.2)
          s.allocations).map Prod.fst).Nodup :=
      ((hperm.map Prod.fst).nodup_iff).mpr hnd
    obtain ⟨hPW, hnn'⟩ :=
      redisLoop_spec _ _ 0 s.allocations hinv hndsorted hnn
    exact ⟨hPW, hnn', rfl, rfl⟩

theorem allocate_preserves (s : AllocatorState) (m : String) (amt : ℚ)
    (hamt : 0 ≤ amt) (hE : 0 ≤ s.config.emergencyAllocation)
    (hinv : AllocInv s) :
    AllocInv (allocate s m amt).2 ∧
    (allocate s m amt).2.budget = s.budget ∧
    (allocate s m amt).2.config = s.config := by
  obtain ⟨hnn, hnd, hbound⟩ := hinv
  have hcur0 : 0 ≤ getAllocation s m := lookupD_nonneg hnn m
  unfold allocate
  by_cases h1 : getTotalAllocated s + amt > s.budget
  · rw [if_pos h1]
    by_cases h2 : canRedistribute s amt = true
    · rw [if_pos h2]
      obtain ⟨hPW, hnn', hb', hc'⟩ := redistribute_spec s amt hnn hnd
      have hE' : getAvailable s + s.config.emergencyAllocation ≥ amt := by
        unfold canRedistribute at h2
        exact of_decide_eq_true h2
      have havail : s.budget - getTotalAllocated s
          + s.config.emergencyAllocation ≥ amt := by
        unfold getAvailable at hE'
        linarith
      refine ⟨⟨?_, ?_, ?_⟩, hb', hc'⟩
      · exact alSet_nonneg hnn' (by linarith) m
      · apply keys_alSet_nodup
        rw [PW_keys hPW]
        exact hnd
      · show getTotalAllocated ⟨(redistributeWithAmount s amt).budget,
            alSet m (getAllocation s m + amt)
              (redistributeWithAmount s amt).allocations,
            (redistributeWithAmount s amt).config⟩
            ≤ (redistributeWithAmount s amt).budget
              + (redistributeWithAmount s amt).config.emergencyAllocation
        rw [getTotalAllocated_eq_sum]
        show ((alSet m (getAllocation s m + amt)
            (redistributeWithAmount s amt).allocations).map Prod.snd).sum ≤ _
        rw [sum_alSet, hb', hc']
        have hsub := PW_sum_sub m hPW
        have htot : getTotalAllocated s = (s.allocations.map Prod.snd).sum :=
          getTotalAllocated_eq_sum s
        have hcur : getAllocation s m = (alLookup m s.allocations).getD 0 := rfl
        linarith
    · rw [if_neg h2]
      exact ⟨⟨hnn, hnd, hbound⟩, rfl, rfl⟩
  · rw [if_neg h1]
    refine ⟨⟨?_, ?_, ?_⟩, rfl, rfl⟩
    · exact alSet_nonneg hnn (by linarith) m
    · exact keys_alSet_nodup hnd
    · show getTotalAllocated ⟨s.budget,
          alSet m (getAllocation s m + amt) s.allocations, s.config⟩
          ≤ s.budget + s.config.emergencyAllocation
      rw [getTotalAllocated_eq_sum]
      show ((alSet m (getAllocation s m + amt) s.allocations).map Prod.snd).sum ≤ _
      rw [sum_alSet]
      have htot : getTotalAllocated s = (s.allocations.map Prod.snd).sum :=
        getTotalAllocated_eq_sum s
      have hcur : getAllocation s m = (alLookup m s.allocations).getD 0 := rfl
      push_neg at h1
      linarith

theorem deallocate_preserves (s : AllocatorState) (m : String) (amt : ℚ)
    (hamt : 0 ≤ amt) (hinv : AllocInv s) :
    AllocInv (deallocate s m amt).2 ∧
    (deallocate s m amt).2.budget = s.budget ∧
    (deallocate s m amt).2.config = s.config := by
  obtain ⟨hnn, hnd, hbound⟩ := hinv
  unfold deallocate
  by_cases h : getAllocation s m < amt
  · rw [if_pos h]
    exact ⟨⟨hnn, hnd, hbound⟩, rfl, rfl⟩
  · rw [if_neg h]
    push_neg at h
    refine ⟨⟨?_, ?_, ?_⟩, rfl, rfl⟩
    · exact alSet_nonneg hnn (by linarith) m
    · exact keys_alSet_nodup hnd
    · show getTotalAllocated ⟨s.budget,
          alSet m (getAllocation s m - amt) s.allocations, s.config⟩
          ≤ s.budget + s.config.emergencyAllocation
      rw [getTotalAllocated_eq_sum]
      show ((alSet m (getAllocation s m - amt) s.allocations).map Prod.snd).sum ≤ _
      rw [sum_alSet]
      have htot : getTotalAllocated s = (s.allocations.map Prod.snd).sum :=
        getTotalAllocated_eq_sum s
      have hcur : getAllocation s m = (alLookup m s.allocations).getD 0 := rfl
      linarith

theorem applyOp_preserves (s : AllocatorState) (op : AllocOp)
    (hamt : 0 ≤ op.amount) (hE : 0 ≤ s.config.emergencyAllocation)
    (hinv : AllocInv s) :
    AllocInv (applyOp s op).2 ∧
    (applyOp s op).2.budget = s.budget ∧
    (applyOp s op).2.config = s.config := by
  cases op with
  | alloc m a => exact allocate_preserves s m a hamt hE hinv
  | dealloc m a => exact deallocate_preserves s m a hamt hinv

/-- C4: over any sequence of `allocate`/`deallocate` calls in which each call
succeeds, starting from a well-formed state satisfying the bound, the total of
all module allocations never exceeds `budget + emergencyAllocation`: each
individually successful call preserves the bound. -/
theorem allocation_total_bounded (s : AllocatorState) (ops : List AllocOp)
    (hamt : ∀ op ∈ ops, 0 ≤ op.amount)
    (hE : 0 ≤ s.config.emergencyAllocation)
    (hinv : AllocInv s)
    (hsucc : allSucceed s ops = true) :
    getTotalAllocated (runOps s ops)
      ≤ s.budget + s.config.emergencyAllocation := by
  induction ops generalizing s with
  | nil => exact hinv.2.2
  | cons op rest ih =>
    have hop : 0 ≤ op.amount := hamt op (List.mem_cons_self _ _)
    obtain ⟨hinv', hb', hc'⟩ := applyOp_preserves s op hop hE hinv
    have hsucc' : allSucceed (applyOp s op).2 rest = true := by
      simp only [allSucceed, Bool.and_eq_true] at hsucc
      exact hsucc.2
    have hrest : ∀ o ∈ rest, 0 ≤ o.amount :=
      fun o ho => hamt o (List.mem_cons_of_mem _ ho)
    have hE2 : 0 ≤ (applyOp s op).2.config.emergencyAllocation := hc' ▸ hE
    have := ih (applyOp s op).2 hrest hE2 hinv' hsucc'
    simpa [runOps, hb', hc'] using this

theorem simulateCompetition_spec_witness :
    simulateCompetition ⟨1, [("a", 1/2), ("b", 1/4)], ⟨1, [], 0, 0, 0⟩⟩
        [("a", 2), ("b", 3)]
      = [("a", 2/3), ("b", 1/3)] ∧
    ((simulateCompetition ⟨1, [("a", 1/2), ("b", 1/4)], ⟨1, [], 0, 0, 0⟩⟩
        [("a", 2), ("b", 3)]).map Prod.snd).sum ≤ 1 := by
  have h := (simulateCompetition_spec
      ⟨1, [("a", 1/2), ("b", 1/4)], ⟨1, [], 0, 0, 0⟩⟩ [("a", 2), ("b", 3)]).2
      (by norm_num)
  constructor
  · rw [h.1]
    simp [getAllocation, getTotalAllocated, alLookup, List.foldl]
    norm_num [min_def]
  · exact h.2 (by decide) (by norm_num)
      (by norm_num [getTotalAllocated, List.foldl]) (by norm_num)

theorem allocation_total_bounded_witness :
    getTotalAllocated (runOps
        (mkAllocator ⟨1, [("perception", 3/10), ("reasoning", 2/5),
          ("memory", 3/10)], 0, 0, 1/10⟩)
        [AllocOp.alloc "perception" (1/10), AllocOp.dealloc "reasoning" (1/5)])
      ≤ 1 + 1/10 := by
  have h := allocation_total_bounded
    (mkAllocator ⟨1, [("perception", 3/10), ("reasoning", 2/5),
      ("memory", 3/10)], 0, 0, 1/10⟩)
    [AllocOp.alloc "perception" (1/10), AllocOp.dealloc "reasoning" (1/5)]
    (by norm_num [AllocOp.amount])
    (by norm_num [mkAllocator])
    (by
      refine ⟨?_, ?_, ?_⟩
      · intro p hp
        simp [mkAllocator, alSet, alContains, alLookup, alUpdate,
          List.foldl] at hp
        rcases hp with h | h | h <;> subst h <;> norm_num
      · simp [mkAllocator, alSet, alContains, alLookup, alUpdate, List.foldl]
      · norm_num [mkAllocator, getTotalAllocated, alSet, alContains, alLookup,
          alUpdate, List.foldl])
    (by
      norm_num [allSucceed, applyOp, allocate, deallocate, mkAllocator,
        getAllocation, getTotalAllocated, getAvailable, canRedistribute,
        redistributeWithAmount, redisLoop, alSet, alContains, alLookup,
        alUpdate, List.foldl, List.insertionSort, List.orderedInsert, min_def]
      all_goals try simp
      all_goals try norm_num)
  simpa [mkAllocator] using h

theorem removeLink_lookup (g : Hypergraph) (x y c : String) :
    alLookup c (removeLink g x y).nodes =
      (alLookup c g.nodes).map (fun n =>
        let n1 := if c = x
          then { n with outgoing := n.outgoing.filter (fun i => i ≠ y) }
          else n
        if c = y
          then { n1 with incoming := n1.incoming.filter (fun i => i ≠ x) }
          else n1) := by
  show alLookup c (alUpdate y _ (alUpdate x _ g.nodes)) = _
  rw [alLookup_alUpdate]
  by_cases hcy : c = y
  · subst hcy
    rw [if_pos rfl, alLookup_alUpdate]
    by_cases hcx : c = x
    · subst hcx
      simp only [if_pos rfl, Option.map_map]
      cases alLookup c g.nodes <;> rfl
    · simp only [if_neg hcx]
      cases alLookup c g.nodes <;> simp [hcx]
  · rw [if_neg hcy, alLookup_alUpdate]
    by_cases hcx : c = x
    · subst hcx
      simp only [if_pos rfl]
      cases alLookup c g.nodes <;> simp [hcy]
    · simp only [if_neg hcx]
      cases alLookup c g.nodes <;> simp [hcx, hcy]

theorem removeLink_props (g : Hypergraph) (x y c : String) (n' : HypergraphNode)
    (h : alLookup c (removeLink g x y).nodes = some n') :
    ∃ n, alLookup c g.nodes = some n ∧
      n'.id = n.id ∧
      (∀ z ∈ n'.outgoing, z ∈ n.outgoing) ∧
      (∀ z ∈ n'.incoming, z ∈ n.incoming) ∧
      (∀ z ∈ n.outgoing, z ≠ y → z ∈ n'.outgoing) ∧
      (∀ z ∈ n.incoming, z ≠ x → z ∈ n'.incoming) ∧
      (c = x → y ∉ n'.outgoing) ∧
      (c = y → x ∉ n'.incoming) := by
  rw [removeLink_lookup] at h
  cases hg : alLookup c g.nodes with
  | none => rw [hg] at h; simp at h
  | some n =>
    rw [hg] at h
    simp only [Option.map_some'] at h
    injection h with h
    subst h
    by_cases hcx : c = x
    · subst hcx
      by_cases hcy : c = y
      · subst hcy
        refine ⟨n, rfl, ?_, ?_, ?_, ?_, ?_, ?_, ?_⟩ <;>
          simp [List.mem_filter] <;> tauto
      · refine ⟨n, rfl, ?_, ?_, ?_, ?_, ?_, ?_, ?_⟩ <;>
          simp [hcy, List.mem_filter] <;> tauto
    · by_cases hcy : c = y
      · subst hcy
        refine ⟨n, rfl, ?_, ?_, ?_, ?_, ?_, ?_, ?_⟩ <;>
          simp [hcx, List.mem_filter] <;> tauto
      · refine ⟨n, rfl, ?_, ?_, ?_, ?_, ?_, ?_, ?_⟩ <;>
          simp [hcx, hcy, List.mem_filter] <;> tauto

theorem removeLink_some (g : Hypergraph) (x y c : String) (n : HypergraphNode)
    (h : alLookup c g.nodes = some n) :
    ∃ n', alLookup c (removeLink g x y).nodes = some n' ∧
      (∀ z ∈ n.outgoing, z ≠ y → z ∈ n'.outgoing) ∧
      (∀ z ∈ n.incoming, z ≠ x → z ∈ n'.incoming) := by
  rw [removeLink_lookup, h]
  by_cases hcx : c = x
  · subst hcx
    by_cases hcy : c = y
    · subst hcy
      refine ⟨_, rfl, ?_, ?_⟩ <;> simp [List.mem_filter] <;> tauto
    · refine ⟨_, rfl, ?_, ?_⟩ <;> simp [hcy, List.mem_filter] <;> tauto
  · by_cases hcy : c = y
    · subst hcy
      refine ⟨_, rfl, ?_, ?_⟩ <;> simp [hcx, List.mem_filter] <;> tauto
    · refine ⟨_, rfl, ?_, ?_⟩ <;> simp [hcx, hcy, List.mem_filter] <;> tauto

theorem GSub_refl (g : Hypergraph) : GSub g g :=
  fun _ n' h => ⟨n', h, rfl, fun _ hz => hz, fun _ hz => hz⟩

theorem GSub_trans {g1 g2 g3 : Hypergraph} (h12 : GSub g1 g2) (h23 : GSub g2 g3) :
    GSub g1 g3 := by
  intro c n' h
  obtain ⟨n2, hn2, hid2, ho2, hi2⟩ := h12 c n' h
  obtain ⟨n3, hn3, hid3, ho3, hi3⟩ := h23 c n2 hn2
  exact ⟨n3, hn3, hid2.trans hid3,
    fun z hz => ho3 z (ho2 z hz), fun z hz => hi3 z (hi2 z hz)⟩

theorem removeLink_gsub (g : Hypergraph) (x y : String) :
    GSub (removeLink g x y) g := by
  intro c n' h
  obtain ⟨n, hn, hid, ho, hi, _, _, _, _⟩ := removeLink_props g x y c n' h
  exact ⟨n, hn, hid, ho, hi⟩

theorem foldRL1_gsub (zs : List String) (tgt : String) (g : Hypergraph) :
    GSub (zs.foldl (fun acc x => removeLink acc x tgt) g) g := by
  induction zs generalizing g with
  | nil => exact GSub_refl g
  | cons z rest ih =>
    exact GSub_trans (ih (removeLink g z tgt)) (removeLink_gsub g z tgt)

theorem foldRL2_gsub (zs : List String) (src : String) (g : Hypergraph) :
    GSub (zs.foldl (fun acc y => removeLink acc src y) g) g := by
  induction zs generalizing g with
  | nil => exact GSub_refl g
  | cons z rest ih =>
    exact GSub_trans (ih (removeLink g src z)) (removeLink_gsub g src z)

theorem foldRL1_cleans (zs : List String) (tgt : String) (g : Hypergraph) :
    ∀ x ∈ zs, ∀ n',
      alLookup x (zs.foldl (fun acc x => removeLink acc x tgt) g).nodes
        = some n' → tgt ∉ n'.outgoing := by
  induction zs generalizing g with
  | nil => intro x hx; simp at hx
  | cons z rest ih =>
    intro x hx n' h
    rcases List.mem_cons.mp hx with rfl | hx'
    · obtain ⟨nm, hnm, _, ho, _⟩ :=
        foldRL1_gsub rest tgt (removeLink g x tgt) x n' h
      obtain ⟨n0, _, _, _, _, _, _, hclean, _⟩ :=
        removeLink_props g x tgt x nm hnm
      intro hmem
      exact hclean rfl (ho tgt hmem)
    · exact ih (removeLink g z tgt) x hx' n' h

theorem foldRL2_cleans (zs : List String) (src : String) (g : Hypergraph) :
    ∀ y ∈ zs, ∀ n',
      alLookup y (zs.foldl (fun acc y => removeLink acc src y) g).nodes
        = some n' → src ∉ n'.incoming := by
  induction zs generalizing g with
  | nil => intro y hy; simp at hy
  | cons z rest ih =>
    intro y hy n' h
    rcases List.mem_cons.mp hy with rfl | hy'
    · obtain ⟨nm, hnm, _, _, hi⟩ :=
        foldRL2_gsub rest src (removeLink g src y) y n' h
      obtain ⟨n0, _, _, _, _, _, _, _, hclean⟩ :=
        removeLink_props g src y y nm hnm
      intro hmem
      exact hclean rfl (hi src hmem)
    · exact ih (removeLink g src z) y hy' n' h

theorem foldRL1_keeps_out (zs : List String) (tgt : String) (g : Hypergraph)
    (c z : String) (hne : z ≠ tgt) :
    (∃ n, alLookup c g.nodes = some n ∧ z ∈ n.outgoing) →
    ∃ n', alLookup c (zs.foldl (fun acc x => removeLink acc x tgt) g).nodes
      = some n' ∧ z ∈ n'.outgoing := by
  induction zs generalizing g with
  | nil => exact fun h => h
  | cons w rest ih =>
    rintro ⟨n, hn, hz⟩
    obtain ⟨n1, hn1, hkeep, _⟩ := removeLink_some g w tgt c n hn
    exact ih (removeLink g w tgt) ⟨n1, hn1, hkeep z hz hne⟩

theorem alLookup_alErase_self (k : String) (l : List (String × α)) :
    alLookup k (alErase k l) = none := by
  induction l with
  | nil => rfl
  | cons p rest ih =>
    rw [alErase_cons]
    by_cases hk : p.1 = k
    · rw [if_pos hk]; exact ih
    · rw [if_neg hk]
      simp only [alLookup, if_neg hk]
      exact ih

theorem linkAddOut_mem (dst : String) (n : HypergraphNode) :
    dst ∈ (linkAddOut dst n).outgoing := by
  unfold linkAddOut
  by_cases h : dst ∈ n.outgoing <;> simp [h]

theorem linkAddOut_fields (dst : String) (n : HypergraphNode) :
    (linkAddOut dst n).id = n.id ∧ (linkAddOut dst n).incoming = n.incoming := by
  unfold linkAddOut
  by_cases h : dst ∈ n.outgoing <;> simp [h]

theorem linkAddInc_mem (src : String) (n : HypergraphNode) :
    src ∈ (linkAddInc src n).incoming := by
  unfold linkAddInc
  by_cases h : src ∈ n.incoming <;> simp [h]

theorem linkAddInc_fields (src : String) (n : HypergraphNode) :
    (linkAddInc src n).id = n.id ∧ (linkAddInc src n).outgoing = n.outgoing := by
  unfold linkAddInc
  by_cases h : src ∈ n.incoming <;> simp [h]

theorem addLink_spec (g : Hypergraph) (a b : String) (g' : Hypergraph)
    (hwk : WellKeyed g) (h : addLink g a b = .ok g') :
    (∃ n ∈ getOutgoing g' a, n.id = b) ∧ (∃ n ∈ getIncoming g' b, n.id = a) := by
  unfold addLink at h
  cases hna : alLookup a g.nodes with
  | none => rw [hna] at h; simp at h
  | some na =>
    cases hnb : alLookup b g.nodes with
    | none => rw [hna, hnb] at h; simp at h
    | some nb =>
      rw [hna, hnb] at h
      simp only [Except.ok.injEq] at h
      subst h
      have hids_a : na.id = a := hwk (a, na) (alLookup_mem hna)
      have hids_b : nb.id = b := hwk (b, nb) (alLookup_mem hnb)
      have hl1 : alLookup a (alUpdate a (linkAddOut b) g.nodes)
          = some (linkAddOut b na) := by
        rw [alLookup_alUpdate, if_pos rfl, hna]; rfl
      by_cases hab : a = b
      · subst hab
        have hnanb : na = nb := by rw [hna] at hnb; injection hnb
        subst hnanb
        have hl2 : alLookup a
            (alUpdate a (linkAddInc a) (alUpdate a (linkAddOut a) g.nodes))
            = some (linkAddInc a (linkAddOut a na)) := by
          rw [alLookup_alUpdate, if_pos rfl, hl1]; rfl
        have hout : a ∈ (linkAddInc a (linkAddOut a na)).outgoing := by
          rw [(linkAddInc_fields a _).2]
          exact linkAddOut_mem a na
        have hinc : a ∈ (linkAddInc a (linkAddOut a na)).incoming :=
          linkAddInc_mem a _
        have hid : (linkAddInc a (linkAddOut a na)).id = a := by
          rw [(linkAddInc_fields a _).1, (linkAddOut_fields a na).1, hids_a]
        constructor
        · refine ⟨linkAddInc a (linkAddOut a na), ?_, hid⟩
          unfold getOutgoing
          rw [hl2]
          exact List.mem_filterMap.mpr ⟨a, hout, hl2⟩
        · refine ⟨linkAddInc a (linkAddOut a na), ?_, hid⟩
          unfold getIncoming
          rw [hl2]
          exact List.mem_filterMap.mpr ⟨a, hinc, hl2⟩
      · have hba : ¬ b = a := fun hh => hab hh.symm
        have hlA : alLookup a
            (alUpdate b (linkAddInc a) (alUpdate a (linkAddOut b) g.nodes))
            = some (linkAddOut b na) := by
          rw [alLookup_alUpdate, if_neg hab, hl1]
        have hlB : alLookup b
            (alUpdate b (linkAddInc a) (alUpdate a (linkAddOut b) g.nodes))
            = some (linkAddInc a nb) := by
          rw [alLookup_alUpdate, if_pos rfl, alLookup_alUpdate, if_neg hba, hnb]
          rfl
        constructor
        · refine ⟨linkAddInc a nb, ?_, by rw [(linkAddInc_fields a nb).1, hids_b]⟩
          unfold getOutgoing
          rw [hlA]
          exact List.mem_filterMap.mpr ⟨b, linkAddOut_mem b na, hlB⟩
        · refine ⟨linkAddOut b na, ?_, by rw [(linkAddOut_fields b na).1, hids_a]⟩
          unfold getIncoming
          rw [hlB]
          exact List.mem_filterMap.mpr ⟨a, linkAddInc_mem a nb, hlA⟩

theorem removeLink_clears (g : Hypergraph) (a b : String) (hwk : WellKeyed g) :
    (¬ ∃ n ∈ getOutgoing (removeLink g a b) a, n.id = b) ∧
    (¬ ∃ n ∈ getIncoming (removeLink g a b) b, n.id = a) := by
  constructor
  · rintro ⟨n, hn, hid⟩
    unfold getOutgoing at hn
    cases hla : alLookup a (removeLink g a b).nodes with
    | none => rw [hla] at hn; simp at hn
    | some na' =>
      rw [hla] at hn
      obtain ⟨c, hc, hcl⟩ := List.mem_filterMap.mp hn
      obtain ⟨nc, hnc, hidc, _, _⟩ := removeLink_gsub g a b c n hcl
      have hcid : nc.id = c := hwk (c, nc) (alLookup_mem hnc)
      have hcb : c = b := by rw [← hid, hidc, hcid]
      obtain ⟨na, _, _, _, _, _, _, hclean, _⟩ :=
        removeLink_props g a b a na' hla
      exact hclean rfl (hcb ▸ hc)
  · rintro ⟨n, hn, hid⟩
    unfold getIncoming at hn
    cases hlb : alLookup b (removeLink g a b).nodes with
    | none => rw [hlb] at hn; simp at hn
    | some nb' =>
      rw [hlb] at hn
      obtain ⟨c, hc, hcl⟩ := List.mem_filterMap.mp hn
      obtain ⟨nc, hnc, hidc, _, _⟩ := removeLink_gsub g a b c n hcl
      have hcid : nc.id = c := hwk (c, nc) (alLookup_mem hnc)
      have hca : c = a := by rw [← hid, hidc, hcid]
      obtain ⟨nb, _, _, _, _, _, _, _, hclean⟩ :=
        removeLink_props g a b b nb' hlb
      exact hclean rfl (hca ▸ hc)

theorem removeNode_no_dangling (g : Hypergraph) (id : String)
    (hcons : LinkConsistent g) :
    ∀ c n', alLookup c (removeNode g id).nodes = some n' →
      id ∉ n'.outgoing ∧ id ∉ n'.incoming := by
  intro c n' h
  unfold removeNode at h
  cases hid : alLookup id g.nodes with
  | none =>
    rw [hid] at h
    simp only at h
    constructor
    · intro hmem
      obtain ⟨nid, hnid, _⟩ := hcons.1 c n' id h hmem
      rw [hid] at hnid
      cases hnid
    · intro hmem
      obtain ⟨nid, hnid, _⟩ := hcons.2 c n' id h hmem
      rw [hid] at hnid
      cases hnid
  | some node =>
    rw [hid] at h
    simp only at h
    set g1 := node.incoming.foldl (fun acc x => removeLink acc x id) g with hg1
    set out1 := (match alLookup id g1.nodes with
      | some n => n.outgoing
      | none => ([] : List String)) with hout1
    set g2 := out1.foldl (fun acc y => removeLink acc id y) g1 with hg2
    have hcne : ¬ c = id := by
      rintro rfl
      rw [alLookup_alErase_self] at h
      cases h
    rw [alLookup_alErase id c _ hcne] at h
    constructor
    · intro hmem
      obtain ⟨n1, hn1, _, ho1, _⟩ := foldRL2_gsub out1 id g1 c n' h
      obtain ⟨n0, hn0, _, ho0, _⟩ := foldRL1_gsub node.incoming id g c n1 hn1
      have hidout : id ∈ n0.outgoing := ho0 id (ho1 id hmem)
      obtain ⟨nid, hnid, hcin⟩ := hcons.1 c n0 id hn0 hidout
      rw [hid] at hnid
      injection hnid with hnid
      subst hnid
      exact foldRL1_cleans node.incoming id g c hcin n1 hn1 (ho1 id hmem)
    · intro hmem
      obtain ⟨n1, hn1, _, _, hi1⟩ := foldRL2_gsub out1 id g1 c n' h
      obtain ⟨n0, hn0, _, _, hi0⟩ := foldRL1_gsub node.incoming id g c n1 hn1
      have hidin : id ∈ n0.incoming := hi0 id (hi1 id hmem)
      obtain ⟨nid, hnid, hcout⟩ := hcons.2 c n0 id hn0 hidin
      rw [hid] at hnid
      injection hnid with hnid
      subst hnid
      obtain ⟨nid1, hnid1, hcout1⟩ :=
        foldRL1_keeps_out node.incoming id g id c hcne ⟨node, hid, hcout⟩
      have hcmem : c ∈ out1 := by
        rw [hout1, hnid1]
        exact hcout1
      exact foldRL2_cleans out1 id g1 c hcmem n' h hmem

/-- C2: for nodes `a`, `b` present in a well-keyed hypergraph, after
`addLink(a,b)` the node `b` is among `getOutgoing(a)` and `a` is among
`getIncoming(b)`; after `removeLink(a,b)` neither membership holds; and for a
graph satisfying the bidirectional adjacency invariant, after `removeNode(id)`
no remaining node contains `id` in its incoming or outgoing adjacency
lists. -/
theorem hypergraph_link_membership :
    (∀ (g : Hypergraph) (a b : String) (g' : Hypergraph), WellKeyed g →
      addLink g a b = .ok g' →
      (∃ n ∈ getOutgoing g' a, n.id = b) ∧ (∃ n ∈ getIncoming g' b, n.id = a)) ∧
    (∀ (g : Hypergraph) (a b : String), WellKeyed g →
      (¬ ∃ n ∈ getOutgoing (removeLink g a b) a, n.id = b) ∧
      (¬ ∃ n ∈ getIncoming (removeLink g a b) b, n.id = a)) ∧
    (∀ (g : Hypergraph) (id : String), LinkConsistent g →
      ∀ c n', alLookup c (removeNode g id).nodes = some n' →
        id ∉ n'.outgoing ∧ id ∉ n'.incoming) :=
  ⟨addLink_spec, fun g a b hwk => removeLink_clears g a b hwk,
    removeNode_no_dangling⟩

theorem hypergraph_link_membership_witness :
    ((∃ n ∈ getOutgoing graphABLinked "a", n.id = "b") ∧
      (∃ n ∈ getIncoming graphABLinked "b", n.id = "a")) ∧
    ((¬ ∃ n ∈ getOutgoing (removeLink graphABLinked "a" "b") "a", n.id = "b") ∧
      (¬ ∃ n ∈ getIncoming (removeLink graphABLinked "a" "b") "b", n.id = "a")) ∧
    (∀ c n', alLookup c (removeNode graphABLinked "b").nodes = some n' →
      "b" ∉ n'.outgoing ∧ "b" ∉ n'.incoming) := by
  have hLC : LinkConsistent graphABLinked := by
    constructor
    · intro a na b h hb
      simp only [graphABLinked, alLookup] at h
      split_ifs at h with h1 h2
      · injection h with h
        subst h
        simp only [List.mem_singleton] at hb
        subst hb
        refine ⟨{ nodeB with incoming := ["a"] }, ?_, ?_⟩
        · simp [graphABLinked, alLookup, nodeA, nodeB]
        · subst h1
          simp
      · injection h with h
        subst h
        simp [nodeB] at hb
    · intro b nb a h ha
      simp only [graphABLinked, alLookup] at h
      split_ifs at h with h1 h2
      · injection h with h
        subst h
        simp [nodeA] at ha
      · injection h with h
        subst h
        simp only [List.mem_singleton] at ha
        subst ha
        refine ⟨{ nodeA with outgoing := ["b"] }, ?_, ?_⟩
        · simp [graphABLinked, alLookup, nodeA, nodeB]
        · subst h2
          simp
  refine ⟨?_, ?_, ?_⟩
  · exact hypergraph_link_membership.1 graphAB "a" "b" graphABLinked
      (by unfold WellKeyed; decide) (by rfl)
  · exact hypergraph_link_membership.2.1 graphABLinked "a" "b"
      (by unfold WellKeyed; decide)
  · exact hypergraph_link_membership.2.2 graphABLinked "b" hLC

theorem matchRecursive_self (n : Nat) :
    ∀ (p : PValue), sizeOf p ≤ n → ∀ st, noVariables p = true →
    ∃ k, 0 < k ∧ matchRecursive p p st =
      (true, { st with
        totalFields := st.totalFields + k
        matchedFields := st.matchedFields + k }) := by
  induction n with
  | zero =>
    intro p hp
    exfalso
    cases p <;> simp at hp
  | succ n ih =>
    intro p hp st hv
    cases p with
    | null =>
      exact ⟨1, Nat.one_pos, by simp [matchRecursive, isVariable, scalarEq]⟩
    | bool b =>
      exact ⟨1, Nat.one_pos, by simp [matchRecursive, isVariable, scalarEq]⟩
    | num q =>
      exact ⟨1, Nat.one_pos, by simp [matchRecursive, isVariable, scalarEq]⟩
    | str s =>
      have hns : startsWithDollar s = false := by
        simpa [noVariables] using hv
      exact ⟨1, Nat.one_pos,
        by simp [matchRecursive, isVariable, scalarEq, hns]⟩
    | arr items =>
      have hvl : noVariablesList items = true := by
        simpa [noVariables] using hv
      have hsz : ∀ x ∈ items, sizeOf x ≤ n := by
        intro x hx
        have h1 := List.sizeOf_lt_of_mem hx
        have h2 : sizeOf (PValue.arr items) = 1 + sizeOf items := by simp
        omega
      have inner : ∀ (l : List PValue), (∀ x ∈ l, sizeOf x ≤ n) →
          noVariablesList l = true → ∀ st1, ∃ m, matchList l l st1 =
            (true, { st1 with
              totalFields := st1.totalFields + m
              matchedFields := st1.matchedFields + m }) := by
        intro l
        induction l with
        | nil => intro _ _ st1; exact ⟨0, by simp [matchList]⟩
        | cons x xs ihl =>
          intro hszl hvcons st1
          have hvx : noVariables x = true := by
            simp [noVariablesList, Bool.and_eq_true] at hvcons
            exact hvcons.1
          have hvxs : noVariablesList xs = true := by
            simp [noVariablesList, Bool.and_eq_true] at hvcons
            exact hvcons.2
          obtain ⟨k, hk, hx⟩ :=
            ih x (hszl x (List.mem_cons_self _ _)) st1 hvx
          obtain ⟨m, hm⟩ := ihl
            (fun y hy => hszl y (List.mem_cons_of_mem _ hy)) hvxs
            { st1 with
              totalFields := st1.totalFields + k
              matchedFields := st1.matchedFields + k }
          refine ⟨k + m, ?_⟩
          simp only [matchList, hx, hm]
          congr 2 <;> omega
      obtain ⟨m, hm⟩ := inner items hsz hvl
        { st with totalFields := st.totalFields + 1 }
      refine ⟨m + 1, Nat.succ_pos m, ?_⟩
      simp only [matchRecursive, isVariable, Bool.false_eq_true, if_false,
        ne_eq, eq_self_iff_true, not_true, hm]
      simp only [Prod.mk.injEq, MatchState.mk.injEq, true_and, and_true]
      all_goals omega
    | obj fields =>
      have hvnd : (fields.map Prod.fst).Nodup := by
        have := hv
        simp [noVariables, Bool.and_eq_true] at this
        exact this.1
      have hvf : noVariablesFields fields = true := by
        have := hv
        simp [noVariables, Bool.and_eq_true] at this
        exact this.2
      have hsz : ∀ e ∈ fields, sizeOf e.2 ≤ n := by
        intro e he
        have h1 := List.sizeOf_lt_of_mem he
        have h2 : sizeOf (PValue.obj fields) = 1 + sizeOf fields := by simp
        have h3 : sizeOf e.2 < sizeOf e := by
          obtain ⟨a, b⟩ := e
          simp
        omega
      have hl : ∀ e ∈ fields, alLookup e.1 fields = some e.2 := by
        intro e he
        obtain ⟨a, b⟩ := e
        exact alLookup_of_mem_nodup hvnd he
      have inner : ∀ (pf : List (String × PValue)),
          (∀ e ∈ pf, sizeOf e.2 ≤ n) → noVariablesFields pf = true →
          (∀ e ∈ pf, alLookup e.1 fields = some e.2) →
          ∀ st1, ∃ m, matchFields pf fields st1 =
            (true, { st1 with
              totalFields := st1.totalFields + m
              matchedFields := st1.matchedFields + m }) := by
        intro pf
        induction pf with
        | nil => intro _ _ _ st1; exact ⟨0, by simp [matchFields]⟩
        | cons e rest ihf =>
          intro hszf hvcons hlf st1
          obtain ⟨key, pv⟩ := e
          have hvx : noVariables pv = true := by
            simp [noVariablesFields, Bool.and_eq_true] at hvcons
            exact hvcons.1
          have hvrest : noVariablesFields rest = true := by
            simp [noVariablesFields, Bool.and_eq_true] at hvcons
            exact hvcons.2
          have hlook : alLookup key fields = some pv :=
            hlf (key, pv) (List.mem_cons_self _ _)
          obtain ⟨k, hk, hx⟩ :=
            ih pv (hszf (key, pv) (List.mem_cons_self _ _)) st1 hvx
          obtain ⟨m, hm⟩ := ihf
            (fun e he => hszf e (List.mem_cons_of_mem _ he)) hvrest
            (fun e he => hlf e (List.mem_cons_of_mem _ he))
            { st1 with
              totalFields := st1.totalFields + k
              matchedFields := st1.matchedFields + k }
          refine ⟨k + m, ?_⟩
          simp only [matchFields, hlook, hx, hm]
          congr 2 <;> omega
      obtain ⟨m, hm⟩ := inner fields hsz hvf hl
        { st with totalFields := st.totalFields + 1 }
      refine ⟨m + 1, Nat.succ_pos m, ?_⟩
      simp only [matchRecursive, isVariable, Bool.false_eq_true, if_false, hm]
      simp only [Prod.mk.injEq, MatchState.mk.injEq, true_and, and_true]
      all_goals omega

/-- C8: exact matching of a variable-free pattern against a structurally
identical input yields confidence exactly 1.0. -/
theorem exact_self_match_confidence (p : PValue) (h : noVariables p = true) :
    calculateMatchConfidence p p = 1 := by
  obtain ⟨k, hk, heq⟩ := matchRecursive_self (sizeOf p) p le_rfl ⟨0, 0, []⟩ h
  unfold calculateMatchConfidence
  rw [heq]
  simp only [if_true]
  have hkq : ((k : ℚ)) ≠ 0 := Nat.cast_ne_zero.mpr (Nat.pos_iff_ne_zero.mp hk)
  simp only [Nat.zero_add]
  exact div_self hkq

theorem exact_self_match_confidence_witness :
    calculateMatchConfidence patternExample patternExample = 1 :=
  exact_self_match_confidence patternExample (by
    simp [patternExample, noVariables, noVariablesFields, noVariablesList]
    decide)

/-- C5: on an engine holding exactly the rule `['p','q'] → 'r'` with truth
value (0.9, 0.1), `forwardChain(['p','q'])` yields exactly one result, with
conclusion `'r'`, strength 0.9 (= 1.0 × 1.0 × 0.9), uncertainty 0.1,
confidence 0.81, produced in step 1. -/
theorem forwardChain_scenario_single_rule :
    forwardChain engC5 ["p", "q"] =
      [⟨"r", ["p", "q"], "rule1", ⟨9/10, 1/10⟩, 81/100, 1⟩] := by
  norm_num [forwardChain, engC5, fcLoop, fcPass, canApplyRule, applyRule,
    collectPremises, combineTruthValuesList, combineRuleTruthValue,
    calculateConfidenceR, isPatternMatch, startsWithDollar, alSet, alContains,
    alLookup, alUpdate, sortByConfidenceDesc, List.insertionSort,
    List.orderedInsert, maxInferenceDepth, List.foldl, min_def]

/-- C6 counterexample: in `engC6` both rules conclude `'g'` from the single
premise `'x'`, and `'x'` is in the fact base (so recursively provable), yet
`backwardChain('g')` produces a result for `r1` only — the visited set is
shared across the whole search (never unwound), so `r2`'s premise lookup is
suppressed. This refutes "for every rule whose conclusion equals the goal and
all of whose premises are recursively provable …, a result is produced for
that rule". -/
theorem backwardChain_shared_premise_counterexample :
    alLookup "x" engC6.facts = some ⟨1, 0⟩ ∧
    (∀ p ∈ engC6.rules, p.2.conclusion = "g" ∧ p.2.premise = ["x"]) ∧
    (backwardChain engC6 "g").map (fun r => r.rule) = ["r1"] := by
  refine ⟨rfl, ?_, ?_⟩
  · intro p hp
    simp only [engC6, List.mem_cons, List.mem_singleton] at hp
    rcases hp with rfl | rfl | hp
    · exact ⟨rfl, rfl⟩
    · exact ⟨rfl, rfl⟩
    · simp at hp
  · norm_num [backwardChain, engC6, backtrack, combineTruthValuesList,
      combineRuleTruthValue, calculateConfidenceR, alLookup,
      sortByConfidenceDesc, List.insertionSort, List.orderedInsert,
      maxInferenceDepth, List.foldl, min_def]

/-- C6 (amended): a goal present in the fact base yields exactly the single
stored-fact result; results are sorted by descending confidence; but the
visited set is global to the entire search and never removed on backtracking,
so of two rules concluding the goal from the same single fact premise only
the first produces a result, although both premises are provable. -/
theorem backwardChain_spec_amended :
    (∀ (eng : PLNEngine) (goal : String) (tv : TruthValue),
      alLookup goal eng.facts = some tv →
      backwardChain eng goal = [⟨goal, [], "fact", tv, tv.strength, 0⟩]) ∧
    (∀ (eng : PLNEngine) (goal : String),
      List.Sorted (fun a b => b.confidence ≤ a.confidence)
        (backwardChain eng goal)) ∧
    (∀ (eng : PLNEngine) (r1 r2 : SymbolicRule) (goal p : String)
      (tv : TruthValue),
      eng.rules.map Prod.snd = [r1, r2] →
      r1.premise = [p] → r2.premise = [p] →
      r1.conclusion = goal → r2.conclusion = goal →
      alLookup goal eng.facts = none →
      alLookup p eng.facts = some tv →
      ¬ p = goal →
      (backwardChain eng goal).map (fun r => r.rule) = [r1.id]) := by
  refine ⟨?_, ?_, ?_⟩
  · intro eng goal tv h
    unfold backwardChain
    simp [backtrack, h, sortByConfidenceDesc, List.insertionSort,
      List.orderedInsert, maxInferenceDepth]
  · intro eng goal
    unfold backwardChain sortByConfidenceDesc
    haveI htot : IsTotal InferenceResult
        (fun a b => b.confidence ≤ a.confidence) :=
      ⟨fun a b => le_total b.confidence a.confidence⟩
    haveI htr : IsTrans InferenceResult
        (fun a b => b.confidence ≤ a.confidence) :=
      ⟨fun _ _ _ hab hbc => le_trans hbc hab⟩
    exact List.sorted_insertionSort _ _
  · intro eng r1 r2 goal p tv hrules hp1 hp2 hc1 hc2 hgoal hfact hpg
    have hgp : ¬ goal = p := fun h => hpg h.symm
    unfold backwardChain
    rw [hrules]
    simp [backtrack, maxInferenceDepth, hp1, hp2, hc1, hc2, hgoal, hfact,
      hpg, hgp, combineTruthValuesList, sortByConfidenceDesc,
      List.insertionSort, List.orderedInsert, List.foldl]

theorem backwardChain_spec_amended_witness :
    backwardChain engC6 "x" = [⟨"x", [], "fact", ⟨1, 0⟩, 1, 0⟩] ∧
    List.Sorted (fun a b => b.confidence ≤ a.confidence)
      (backwardChain engC6 "g") ∧
    (backwardChain engC6 "g").map (fun r => r.rule) = ["r1"] := by
  refine ⟨?_, backwardChain_spec_amended.2.1 engC6 "g", ?_⟩
  · have h := backwardChain_spec_amended.1 engC6 "x" ⟨1, 0⟩ rfl
    simpa using h
  · exact backwardChain_spec_amended.2.2 engC6
      ⟨"r1", "r1", ["x"], "g", ⟨1/2, 0⟩, []⟩
      ⟨"r2", "r2", ["x"], "g", ⟨1/2, 0⟩, []⟩
      "g" "x" ⟨1, 0⟩ rfl rfl rfl rfl rfl rfl rfl (by decide)

theorem mem_alUpdate {α : Type} {p : String × α} (k : String) (f : α → α)
    (l : List (String × α)) (h : p ∈ alUpdate k f l) :
    p ∈ l ∨ ∃ q ∈ l, p = (q.1, f q.2) := by
  induction l with
  | nil => simp [alUpdate] at h
  | cons q rest ih =>
    obtain ⟨k', v⟩ := q
    simp only [alUpdate] at h
    by_cases hk : k' = k
    · rw [if_pos hk] at h
      rcases List.mem_cons.mp h with rfl | hmem
      · exact Or.inr ⟨(k', v), List.mem_cons_self _ _, rfl⟩
      · exact Or.inl (List.mem_cons_of_mem _ hmem)
    · rw [if_neg hk] at h
      rcases List.mem_cons.mp h with rfl | hmem
      · exact Or.inl (List.mem_cons_self _ _)
      · rcases ih hmem with hm | ⟨q, hq, heq⟩
        · exact Or.inl (List.mem_cons_of_mem _ hm)
        · exact Or.inr ⟨q, List.mem_cons_of_mem _ hq, heq⟩

theorem mem_alSet {α : Type} {p : String × α} (k : String) (v : α)
    (l : List (String × α)) (h : p ∈ alSet k v l) :
    p.2 = v ∨ p ∈ l := by
  unfold alSet at h
  by_cases hc : alContains k l
  · rw [if_pos hc] at h
    rcases mem_alUpdate k _ l h with hm | ⟨q, _, heq⟩
    · exact Or.inr hm
    · left
      rw [heq]
  · rw [if_neg hc] at h
    rcases List.mem_append.mp h with hm | hm
    · exact Or.inr hm
    · left
      simp only [List.mem_singleton] at hm
      rw [hm]

/-- C9: activating a kernel id absent from the registry rejects with the
not-found error naming the kernel, leaves the registry untouched, and
`getState` returns `undefined`/`none` both before and after the failed
call — for every handler dispatch. -/
theorem activate_missing_kernel
    (process : CognitiveKernel → Option PValue → Except String PValue)
    (reg : KernelRegistry) (id : String) (input : Option PValue) (now : Nat)
    (hk : alLookup id reg.kernels = none)
    (hs : alLookup id reg.states = none) :
    (activate process reg id input now).1
        = .error (.notFound ("Kernel " ++ id ++ " not found")) ∧
    (activate process reg id input now).2 = reg ∧
    getState reg id = none ∧
    getState (activate process reg id input now).2 id = none := by
  unfold activate getState
  rw [hk]
  exact ⟨rfl, rfl, hs, hs⟩

theorem activate_missing_kernel_witness :
    (activate (fun _ _ => .ok (.obj [])) ⟨[], []⟩ "missing-id" none 0).1
        = .error (.notFound ("Kernel " ++ "missing-id" ++ " not found")) ∧
    (activate (fun _ _ => .ok (.obj [])) ⟨[], []⟩ "missing-id" none 0).2
        = (⟨[], []⟩ : KernelRegistry) ∧
    getState (⟨[], []⟩ : KernelRegistry) "missing-id" = none ∧
    getState (activate (fun _ _ => .ok (.obj []))
      ⟨[], []⟩ "missing-id" none 0).2 "missing-id" = none :=
  activate_missing_kernel (fun _ _ => .ok (.obj [])) ⟨[], []⟩ "missing-id"
    none 0 rfl rfl

theorem regStep_errbound
    (process : CognitiveKernel → Option PValue → Except String PValue)
    (reg : KernelRegistry) (op : RegOp) (hinv : ErrBound reg) :
    ErrBound (regStep process reg op) := by
  cases op with
  | register kernel now =>
    intro p hp
    rcases mem_alSet _ _ _ hp with he | hm
    · rw [he]
      simp
    · exact hinv p hm
  | unregister id =>
    intro p hp
    exact hinv p (List.mem_of_mem_filter hp)
  | activate id input now =>
    intro p hp
    simp only [regStep, activate] at hp
    cases hkk : alLookup id reg.kernels with
    | none =>
      rw [hkk] at hp
      exact hinv p hp
    | some kernel =>
      rw [hkk] at hp
      cases hss : alLookup id reg.states with
      | none =>
        rw [hss] at hp
        exact hinv p hp
      | some state =>
        rw [hss] at hp
        dsimp only at hp
        cases hproc : process kernel input with
        | ok result =>
          rw [hproc] at hp
          simp only at hp
          rcases mem_alSet _ _ _ hp with he | hm
          · rw [he]
            simp
          · exact hinv p hm
        | error msg =>
          rw [hproc] at hp
          simp only at hp
          rcases mem_alSet _ _ _ hp with he | hm
          · rw [he]
            simp
          · exact hinv p hm
  | deactivate id =>
    intro p hp
    rcases mem_alUpdate _ _ _ hp with hm | ⟨q, hq, heq⟩
    · exact hinv p hm
    · have := hinv q hq
      rw [heq]
      simpa using this

/-- C10: across every sequence of registry operations (with an arbitrary
handler dispatch), every kernel state's `errors` list holds at most one
entry — `activate` clears the list at the start of each activation and
pushes at most one message per failed activation, so errors never
accumulate. -/
theorem kernel_errors_at_most_one
    (process : CognitiveKernel → Option PValue → Except String PValue)
    (ops : List RegOp) (reg : KernelRegistry) (hinv : ErrBound reg) :
    ErrBound (runRegOps process reg ops) := by
  induction ops generalizing reg with
  | nil => exact hinv
  | cons op rest ih =>
    exact ih (regStep process reg op) (regStep_errbound process reg op hinv)

theorem kernel_errors_at_most_one_witness :
    ErrBound (runRegOps (fun _ _ => .error "boom") ⟨[], []⟩
      [.register kernelEx 0, .activate "k" none 1, .activate "k" none 2]) :=
  kernel_errors_at_most_one (fun _ _ => .error "boom")
    [.register kernelEx 0, .activate "k" none 1, .activate "k" none 2]
    ⟨[], []⟩ (by intro p hp; simp at hp)

end CognitiveGrammar
